import Mathlib

/-!
SecuXDR (Wazuh agent): scheduling subsystem, string helpers, Windows agent,
logcollector requests and memory report.

Verification development over a shallow embedding.

* Part I models the periodic-scheduling subsystem (Schedule Normalizer and
  Next-Run Calculator).  Its implementation (`sched_scan_read`,
  `sched_scan_get_time_until_next_scan`) is not among the available sources;
  only its unit test `unit_tests/wazuh_modules/sca/test_wm_sca.c` and the
  declaration site `wazuh_modules/wm_aws.h` are.  The definitions of Part I are
  therefore modelled from the specification and are marked as such.
* Part II embeds `shared_modules/utils/stringHelper.h` from the source.
* Part III embeds the reconnection settings of `local_start` and the mutex
  discipline of `SendMSGAction` (`win32/win_utils.c`).
* Part IV embeds `lccom_dispatch` and `lccom_getconfig` (`logcollector/lccom.c`).
* Part V embeds `SysInfo::getMemory` (`data_provider/src/sysInfoMac.cpp`).
-/

set_option autoImplicit false

namespace Sched

/-! ## Part I.  Data model of the scheduler -/

/-- Wall-clock time of day `HH:MM` (spec §3, field `time_of_day`). -/
structure TimeOfDay where
  hour : Fin 24
  minute : Fin 60
deriving DecidableEq, Repr

/-- Seconds after local midnight of a time of day. -/
def TimeOfDay.toSeconds (t : TimeOfDay) : Nat := t.hour.val * 3600 + t.minute.val * 60

/-- Rendering `HH:MM` with two digits each, as in the test's `scan_time`. -/
def TimeOfDay.render (t : TimeOfDay) : String :=
  String.mk [Nat.digitChar (t.hour.val / 10), Nat.digitChar (t.hour.val % 10), ':',
             Nat.digitChar (t.minute.val / 10), Nat.digitChar (t.minute.val % 10)]

/-- Day of month, an integer in 1..31 (spec §3, field `month_day`). -/
structure MonthDay where
  val : Nat
  pos : 1 ≤ val
  le : val ≤ 31
deriving DecidableEq

/-- An interval as the original encodes it (spec §9): a count together with the
flag telling calendar-month semantics (`months`) from fixed-duration semantics
(`seconds`).  The external parser delivers `seconds` (spec §6); `months` is
what a normalized Monthly descriptor holds. -/
inductive Interval where
  | seconds (n : Nat)
  | months (n : Nat)
deriving DecidableEq, Repr

/-- The count of an interval (field `interval` of the test's `scan_config`). -/
def Interval.count : Interval → Nat
  | .seconds n => n
  | .months n => n

/-- The flag `month_interval` of the test's `scan_config`. -/
def Interval.isMonths : Interval → Bool
  | .seconds _ => false
  | .months _ => true

/-- The four scheduling policies (spec §3, derived policy). -/
inductive Policy where
  | Weekly | Monthly | DailyTime | PlainInterval
deriving DecidableEq, Repr

/-- Raw configuration as delivered by the external parser (spec §6): optional
`interval`, `month_day`, `weekday`, `time_of_day`, and `run_on_start`. -/
structure RawConfig where
  interval : Option Interval
  month_day : Option MonthDay
  weekday : Option (Fin 7)
  time_of_day : Option TimeOfDay
  run_on_start : Bool
deriving DecidableEq

/-- Schedule Descriptor (spec §3). -/
structure Descriptor where
  interval : Interval
  month_day : Option MonthDay
  weekday : Option (Fin 7)
  time_of_day : Option TimeOfDay
  run_on_start : Bool
  next_run_time : Nat
deriving DecidableEq

/-- Derived policy, by the precedence `weekday > month_day > time_of_day >
interval` (spec §3). -/
def Descriptor.policy (d : Descriptor) : Policy :=
  match d.weekday, d.month_day, d.time_of_day with
  | some _, _, _ => .Weekly
  | none, some _, _ => .Monthly
  | none, none, some _ => .DailyTime
  | none, none, none => .PlainInterval

/-- Field `scan_day` as the unit test reads it: the month day, 0 when absent. -/
def Descriptor.scan_day (d : Descriptor) : Nat :=
  match d.month_day with
  | some m => m.val
  | none => 0

/-- Field `scan_wday` as the unit test reads it: the weekday (Sunday = 0), -1
when absent. -/
def Descriptor.scan_wday (d : Descriptor) : Int :=
  match d.weekday with
  | some w => (w.val : Int)
  | none => -1

/-- Field `scan_time` as the unit test reads it. -/
def Descriptor.scan_time (d : Descriptor) : Option String :=
  d.time_of_day.map TimeOfDay.render

/-- The `ConfigurationError` taxonomy of spec §7. -/
inductive ConfigurationError where
  | dayAndWeekday
  | missingTimeOfDay
deriving DecidableEq, Repr

/-- Corrective adjustments (spec §7), carrying the new interval count. -/
inductive Diagnostic where
  | weeklyMultiple (weeks : Nat)
  | monthlyMultiple (months : Nat)
deriving DecidableEq, Repr

/-- Text of a corrective diagnostic, in the wording the unit test expects. -/
def Diagnostic.message : Diagnostic → String
  | .weeklyMultiple k =>
      "Interval must be a multiple of one week. New interval value: " ++ toString k ++ "w"
  | .monthlyMultiple k =>
      "Interval must be a multiple of one month. New interval value: " ++ toString k ++ "M"

/-- One week in seconds. -/
def WEEK_SECONDS : Nat := 604800

/-- The interval in seconds a raw configuration supplies, if any. -/
def suppliedSeconds : Option Interval → Option Nat
  | some (.seconds s) => some s
  | _ => none

/-- Number of weeks the Weekly policy forces for a supplied number of seconds:
the least `k ≥ 1` with `s ≤ k * 604800`. -/
def weeksFor (s : Nat) : Nat := max 1 ((s + (WEEK_SECONDS - 1)) / WEEK_SECONDS)

/-- Month count the Monthly policy keeps: a supplied count of months, at least
one; one month when the supplied interval is in seconds or absent. -/
def monthsFor : Option Interval → Nat
  | some (.months n) => max 1 n
  | _ => 1

/-- Modelled from the spec: the Schedule Normalizer (§4.1), whose implementation
`sched_scan_read` is absent from the sources.  `WM_DEF_INTERVAL` is the
module-specific default interval in seconds.  The result is the descriptor
together with the corrective diagnostics emitted, or a `ConfigurationError`. -/
def normalize (WM_DEF_INTERVAL : Nat) (c : RawConfig) :
    Except ConfigurationError (Descriptor × List Diagnostic) :=
  match c.weekday, c.month_day with
  | some _, some _ => .error .dayAndWeekday
  | some w, none =>
    match c.time_of_day with
    | none => .error .missingTimeOfDay
    | some t =>
      let k := weeksFor ((suppliedSeconds c.interval).getD 0)
      let iv := Interval.seconds (k * WEEK_SECONDS)
      .ok ({ interval := iv, month_day := none, weekday := some w, time_of_day := some t,
             run_on_start := c.run_on_start, next_run_time := 0 },
           if c.interval = some iv then [] else [.weeklyMultiple k])
  | none, some m =>
    match c.time_of_day with
    | none => .error .missingTimeOfDay
    | some t =>
      let k := monthsFor c.interval
      let iv := Interval.months k
      .ok ({ interval := iv, month_day := some m, weekday := none, time_of_day := some t,
             run_on_start := c.run_on_start, next_run_time := 0 },
           if c.interval = some iv then [] else [.monthlyMultiple k])
  | none, none =>
    match c.time_of_day with
    | some t =>
      .ok ({ interval := c.interval.getD (.seconds WM_DEF_INTERVAL), month_day := none,
             weekday := none, time_of_day := some t,
             run_on_start := c.run_on_start, next_run_time := 0 }, [])
    | none =>
      let iv := match suppliedSeconds c.interval with
        | some s => if 0 < s then Interval.seconds s else .seconds WM_DEF_INTERVAL
        | none => .seconds WM_DEF_INTERVAL
      .ok ({ interval := iv, month_day := none, weekday := none, time_of_day := none,
             run_on_start := c.run_on_start, next_run_time := 0 }, [])

/-- A descriptor is normalized when the normalizer produces it from some raw
configuration. -/
def Descriptor.Normalized (WM_DEF_INTERVAL : Nat) (d : Descriptor) : Prop :=
  ∃ c diags, normalize WM_DEF_INTERVAL c = .ok (d, diags)

/-! ### Calendar

Timestamps are seconds of local wall-clock time counted from 1970-01-01 00:00
(a Thursday), in the proleptic Gregorian calendar; changes of the UTC offset are
outside the model. -/

/-- One day in seconds. -/
def DAY_SECONDS : Nat := 86400

/-- Gregorian leap-year rule. -/
def isLeapYear (y : Nat) : Bool := y % 4 == 0 && (y % 100 != 0 || y % 400 == 0)

/-- Number of days of month `m` (January = 0) in year `y`. -/
def daysInMonth (y m : Nat) : Nat :=
  if m = 1 then (if isLeapYear y then 29 else 28)
  else if m = 3 ∨ m = 5 ∨ m = 8 ∨ m = 10 then 30
  else 31

/-- Length of the calendar month with index `mi`, months being counted from
January 1970 (index 0). -/
def monthLength (mi : Nat) : Nat := daysInMonth (1970 + mi / 12) (mi % 12)

/-- Day number (days since 1970-01-01) of the first day of month `mi`. -/
def monthStart : Nat → Nat
  | 0 => 0
  | mi + 1 => monthStart mi + monthLength mi

/-- Search for the month containing a day: `days` is the offset from the first
day of month `mi`; returns the month index and the offset within it. -/
def civilAux : Nat → Nat → Nat → Nat × Nat
  | 0, mi, days => (mi, days)
  | fuel + 1, mi, days =>
    if days < monthLength mi then (mi, days)
    else civilAux fuel (mi + 1) (days - monthLength mi)

/-- Month index and zero-based day of month of a day number. -/
def civil (day : Nat) : Nat × Nat := civilAux day 0 day

/-- Month index (months since January 1970) of a timestamp. -/
def monthIndexOf (t : Nat) : Nat := (civil (t / DAY_SECONDS)).1

/-- Day of month (1-based, `tm_mday`) of a timestamp. -/
def dayOfMonthOf (t : Nat) : Nat := (civil (t / DAY_SECONDS)).2 + 1

/-- Weekday (Sunday = 0, `tm_wday`) of a timestamp. -/
def weekdayOf (t : Nat) : Nat := (t / DAY_SECONDS + 4) % 7

/-- Hour, minute and second of the wall-clock time of a timestamp. -/
def clockOf (t : Nat) : Nat × Nat × Nat :=
  (t % DAY_SECONDS / 3600, t % 3600 / 60, t % 60)

/-! ### Next-Run Calculator -/

/-- Weekly policy: the next occurrence of weekday `w` at `tod` strictly after
`now`. -/
def nextWeekly (w : Fin 7) (tod : TimeOfDay) (now : Nat) : Nat :=
  let ahead := (w.val + 7 - weekdayOf now) % 7
  let cand := (now / DAY_SECONDS + ahead) * DAY_SECONDS + tod.toSeconds
  if now < cand then cand else cand + 7 * DAY_SECONDS

/-- The firing instant of month `mi`: day `md` at `tod`, the day clamped to the
last day of the month when the month is shorter. -/
def monthCandidate (md : MonthDay) (tod : TimeOfDay) (mi : Nat) : Nat :=
  (monthStart mi + (min md.val (monthLength mi) - 1)) * DAY_SECONDS + tod.toSeconds

/-- Monthly policy: the firing instant of the current month if still ahead of
`now`, otherwise that of the following month. -/
def nextMonthly (md : MonthDay) (tod : TimeOfDay) (now : Nat) : Nat :=
  if now < monthCandidate md tod (monthIndexOf now) then
    monthCandidate md tod (monthIndexOf now)
  else monthCandidate md tod (monthIndexOf now + 1)

/-- DailyTime policy: the next occurrence of `tod` strictly after `now`. -/
def nextDaily (tod : TimeOfDay) (now : Nat) : Nat :=
  let cand := now / DAY_SECONDS * DAY_SECONDS + tod.toSeconds
  if now < cand then cand else cand + DAY_SECONDS

/-- Modelled from the spec: the Next-Run Calculator `compute_next` (§4.2), whose
implementation `sched_scan_get_time_until_next_scan` is absent from the sources.
A day or weekday policy without a time of day (excluded by normalization) is
read as 00:00.  A `next_run_time` of 0 marks the first computation after module
start. -/
def compute_next (d : Descriptor) (now : Nat) : Nat :=
  match d.weekday, d.month_day, d.time_of_day with
  | some w, _, tod => nextWeekly w (tod.getD ⟨0, 0⟩) now
  | none, some md, tod => nextMonthly md (tod.getD ⟨0, 0⟩) now
  | none, none, some tod => nextDaily tod now
  | none, none, none =>
    if d.run_on_start ∧ d.next_run_time = 0 then now else now + d.interval.count

/-- Reading a descriptor back as a configuration, for re-normalization. -/
def Descriptor.toRaw (d : Descriptor) : RawConfig :=
  { interval := some d.interval, month_day := d.month_day, weekday := d.weekday,
    time_of_day := d.time_of_day, run_on_start := d.run_on_start }

/-! ### Configurations and descriptors of the unit test and of the examples -/

/-- The Monday 04:30 configuration of `test_read_scheduling_weekday_configuration`. -/
def mondayConfig : RawConfig :=
  { interval := none, month_day := none, weekday := some 1,
    time_of_day := some ⟨4, 30⟩, run_on_start := false }

/-- The day 7, 03:30 configuration of `test_read_scheduling_monthday_configuration`. -/
def day7Config : RawConfig :=
  { interval := none, month_day := some ⟨7, by decide, by decide⟩, weekday := none,
    time_of_day := some ⟨3, 30⟩, run_on_start := false }

/-- The 05:30 configuration of `test_read_scheduling_daytime_configuration`. -/
def daytimeConfig : RawConfig :=
  { interval := none, month_day := none, weekday := none,
    time_of_day := some ⟨5, 30⟩, run_on_start := false }

/-- The normalized descriptor of the Monday 04:30 configuration. -/
def mondayDescriptor : Descriptor :=
  { interval := .seconds 604800, month_day := none, weekday := some 1,
    time_of_day := some ⟨4, 30⟩, run_on_start := false, next_run_time := 0 }

/-- A configuration asking for day 31 at 00:00, every month. -/
def day31Config : RawConfig :=
  { interval := some (.months 1), month_day := some ⟨31, by decide, by decide⟩,
    weekday := none, time_of_day := some ⟨0, 0⟩, run_on_start := false }

/-- The descriptor of day 31 at 00:00, every month. -/
def day31Descriptor : Descriptor :=
  { interval := .months 1, month_day := some ⟨31, by decide, by decide⟩, weekday := none,
    time_of_day := some ⟨0, 0⟩, run_on_start := false, next_run_time := 0 }

end Sched

/-! ## Part II.  String helpers (`shared_modules/utils/stringHelper.h`) -/

namespace Utils

/-! Byte strings are lists of byte values (`Nat`, reduced modulo 256 where the
source converts to `uint8_t` or `char`); text functions whose behaviour does not
depend on the alphabet are stated over an arbitrary character type with
decidable equality. -/

/-- `Utils::ISO8859ToUTF8`: the loop over `data` appending to `strOut`; the
result is the new value of `data`. -/
def ISO8859ToUTF8 (data : List Nat) : List Nat :=
  data.foldl (fun strOut c =>
    let ch := c % 256
    if ch < 0x80 then strOut ++ [ch]
    else (strOut ++ [(0xc0 ||| (ch >>> 6)) % 256]) ++ [(0x80 ||| (ch &&& 0x3f)) % 256]) []

/-- The two-way choice of the claim: an ASCII byte as itself, any other byte as
its two-byte sequence. -/
def encodeLatin1Byte (b : Nat) : List Nat :=
  if b < 0x80 then [b] else [0xC0 ||| (b >>> 6), 0x80 ||| (b &&& 0x3F)]

/-- Whether a byte is a UTF-8 continuation byte `10xxxxxx`. -/
def isContinuation (b : Nat) : Bool := 0x80 ≤ b && b < 0xC0

/-- UTF-8 decoder (RFC 3629: shortest form only, no surrogates, at most
U+10FFFF), with fuel bounding the number of code points. -/
def utf8DecodeAux : Nat → List Nat → Option (List Nat)
  | _, [] => some []
  | 0, _ :: _ => none
  | fuel + 1, b0 :: rest =>
    if b0 < 0x80 then (utf8DecodeAux fuel rest).map (b0 :: ·)
    else if b0 < 0xC0 then none
    else if b0 < 0xE0 then
      match rest with
      | b1 :: r =>
        let cp := ((b0 &&& 0x1F) <<< 6) ||| (b1 &&& 0x3F)
        if isContinuation b1 ∧ 0x80 ≤ cp then (utf8DecodeAux fuel r).map (cp :: ·) else none
      | _ => none
    else if b0 < 0xF0 then
      match rest with
      | b1 :: b2 :: r =>
        let cp := ((b0 &&& 0x0F) <<< 12) ||| ((b1 &&& 0x3F) <<< 6) ||| (b2 &&& 0x3F)
        if isContinuation b1 ∧ isContinuation b2 ∧ 0x800 ≤ cp ∧ ¬ (0xD800 ≤ cp ∧ cp < 0xE000)
        then (utf8DecodeAux fuel r).map (cp :: ·) else none
      | _ => none
    else if b0 < 0xF8 then
      match rest with
      | b1 :: b2 :: b3 :: r =>
        let cp := ((b0 &&& 0x07) <<< 18) ||| ((b1 &&& 0x3F) <<< 12) |||
          ((b2 &&& 0x3F) <<< 6) ||| (b3 &&& 0x3F)
        if isContinuation b1 ∧ isContinuation b2 ∧ isContinuation b3 ∧
            0x10000 ≤ cp ∧ cp < 0x110000
        then (utf8DecodeAux fuel r).map (cp :: ·) else none
      | _ => none
    else none

/-- Code points of a UTF-8 byte string, `none` when it is not valid UTF-8. -/
def utf8Decode (bytes : List Nat) : Option (List Nat) := utf8DecodeAux bytes.length bytes

/-- State of the `std::istringstream`: the unread characters and the state
bits. -/
structure IStream (α : Type) where
  rest : List α
  eofbit : Bool
  failbit : Bool

/-- Character extraction of `std::getline`: the characters before the first
delimiter, and the input after that delimiter, or `none` when the end of input
is met first. -/
def getlineChars {α : Type} [DecidableEq α] (delimiter : α) : List α → List α × Option (List α)
  | [] => ([], none)
  | c :: cs =>
    if c = delimiter then ([], some cs)
    else ((c :: (getlineChars delimiter cs).1), (getlineChars delimiter cs).2)

/-- `std::getline(tokenStream, token, delimiter)`: fails at once on a stream that
is not good; otherwise extracts up to the delimiter (discarded) or the end of
input (setting `eofbit`), and sets `failbit` when nothing at all was
extracted.  Returns the token and the new stream state. -/
def getline {α : Type} [DecidableEq α] (delimiter : α) (is : IStream α) : List α × IStream α :=
  if is.eofbit ∨ is.failbit then ([], { is with failbit := true })
  else
    match getlineChars delimiter is.rest with
    | (token, some rest) => (token, { rest := rest, eofbit := false, failbit := false })
    | (token, none) => (token, { rest := [], eofbit := true, failbit := token.isEmpty })

/-- The `while (std::getline(...)) tokens.push_back(token);` loop of
`Utils::split`; `none` when the fuel runs out. -/
def splitLoop {α : Type} [DecidableEq α] (delimiter : α) :
    Nat → IStream α → List (List α) → Option (List (List α))
  | 0, _, _ => none
  | fuel + 1, is, tokens =>
    if (getline delimiter is).2.failbit then some tokens
    else splitLoop delimiter fuel (getline delimiter is).2 (tokens ++ [(getline delimiter is).1])

/-- `Utils::split`. -/
def split {α : Type} [DecidableEq α] (str : List α) (delimiter : α) : Option (List (List α)) :=
  splitLoop delimiter (str.length + 2) { rest := str, eofbit := false, failbit := false } []

/-- Search of `find_first_of` through the characters from index `i` on. -/
def findFirstOfFrom {α : Type} [DecidableEq α] (chars : List α) : List α → Nat → Option Nat
  | [], _ => none
  | c :: cs, i => if c ∈ chars then some i else findFirstOfFrom chars cs (i + 1)

/-- `std::string::find_first_of(chars, pos)`; `none` stands for `npos`. -/
def find_first_of {α : Type} [DecidableEq α] (str chars : List α) (pos : Nat) : Option Nat :=
  findFirstOfFrom chars (str.drop pos) pos

/-- The `while (npos != found)` loop of `splitKeyValueNonEscapedDelimiter`,
starting from `retVal = (str, "")`; `none` when the fuel runs out. -/
def splitKeyValueLoop {α : Type} [DecidableEq α] (str : List α) (delimiter : α)
    (findText : List α) : Nat → Option Nat → Option (List α × List α)
  | _, none => some (str, [])
  | 0, some _ => none
  | fuel + 1, some found =>
    if str[found]? = some delimiter then some (str.take found, str.drop (found + 1))
    else splitKeyValueLoop str delimiter findText fuel (find_first_of str findText (found + 2))

/-- `Utils::splitKeyValueNonEscapedDelimiter`. -/
def splitKeyValueNonEscapedDelimiter {α : Type} [DecidableEq α] (str : List α)
    (delimiter escapeChar : α) : Option (List α × List α) :=
  splitKeyValueLoop str delimiter [escapeChar, delimiter] (str.length + 1)
    (find_first_of str [escapeChar, delimiter] 0)

/-- Tokens of a string by structural recursion: the segments between
delimiters, without the empty segment after a final delimiter. -/
def tokensOf {α : Type} [DecidableEq α] (delimiter : α) : List α → List (List α)
  | [] => []
  | c :: cs =>
    if c = delimiter then [] :: tokensOf delimiter cs
    else
      match tokensOf delimiter cs with
      | [] => [[c]]
      | t :: ts => (c :: t) :: ts

/-- Scan of `std::string::find`: the first index, counted from `i` at the head of
the scanned characters, at which `pat` starts. -/
def findFrom {α : Type} [DecidableEq α] (pat : List α) : List α → Nat → Option Nat
  | [], i => if pat.isPrefixOf [] then some i else none
  | c :: cs, i => if pat.isPrefixOf (c :: cs) then some i else findFrom pat cs (i + 1)

/-- `std::string::find(str, pos)`; `none` stands for `npos`. -/
def find {α : Type} [DecidableEq α] (data pat : List α) (pos : Nat) : Option Nat :=
  if pos ≤ data.length then findFrom pat (data.drop pos) pos else none

/-- `std::string::replace(pos, len, str)` for `pos` inside the string. -/
def replace {α : Type} (data : List α) (pos len : Nat) (str : List α) : List α :=
  data.take pos ++ str ++ data.drop (pos + len)

/-- The `while (std::string::npos != pos)` loop of `Utils::replaceAll`; `none`
when the fuel runs out. -/
def replaceAllLoop {α : Type} [DecidableEq α] (toSearch toReplace : List α) :
    Nat → List α → Option Nat → Option (List α)
  | _, data, none => some data
  | 0, _, some _ => none
  | fuel + 1, data, some pos =>
    replaceAllLoop toSearch toReplace fuel (replace data pos toSearch.length toReplace)
      (find (replace data pos toSearch.length toReplace) toSearch pos)

/-- `Utils::replaceAll` run with a bound on the number of loop iterations: the
returned flag and the final `data`, or `none` when the loop has not ended within
the bound. -/
def replaceAll {α : Type} [DecidableEq α] (fuel : Nat) (data toSearch toReplace : List α) :
    Option (Bool × List α) :=
  (replaceAllLoop toSearch toReplace fuel data (find data toSearch 0)).map
    fun d => ((find data toSearch 0).isSome, d)

/-- `Utils::replaceFirst`: the returned flag and the final `data`. -/
def replaceFirst {α : Type} [DecidableEq α] (data toSearch toReplace : List α) :
    Bool × List α :=
  match find data toSearch 0 with
  | some pos => (true, replace data pos toSearch.length toReplace)
  | none => (false, data)

/-- `Utils::splitIndex`; the `std::runtime_error` is the `Except` error. -/
def splitIndex {α : Type} [DecidableEq α] (str : List α) (delimiter : α) (index : Nat) :
    Option (Except String (List α)) :=
  (split str delimiter).map fun splitResult =>
    if h : index < splitResult.length then .ok (splitResult.get ⟨index, h⟩)
    else .error "Invalid index to get values."

/-- The loop of `Utils::splitNullTerminatedStrings`.  The pointer `buffer` is
the list of the bytes from the pointed one to the end of the memory block;
reading past that end gives `none`, as does running out of fuel. -/
def splitNullTerminatedLoop : Nat → List Nat → List (List Nat) → Option (List (List Nat))
  | 0, _, _ => none
  | fuel + 1, buffer, ret =>
    match buffer with
    | [] => none
    | b :: _ =>
      if b = 0 then some ret
      else if 0 ∈ buffer then
        splitNullTerminatedLoop fuel (buffer.drop ((buffer.takeWhile (· ≠ 0)).length + 1))
          (if (buffer.takeWhile (· ≠ 0)).isEmpty then ret
           else ret ++ [buffer.takeWhile (· ≠ 0)])
      else none

/-- `Utils::splitNullTerminatedStrings`. -/
def splitNullTerminatedStrings (buffer : List Nat) : Option (List (List Nat)) :=
  splitNullTerminatedLoop (buffer.length + 1) buffer []

/-- Stream padding `std::setw(width)` with `std::setfill(fill)`, right
adjusted. -/
def setwFill (width : Nat) (fill : Char) (s : List Char) : List Char :=
  List.replicate (width - s.length) fill ++ s

/-- `Utils::asciiToHex`, the stream path: every value is written in base 16
(lowercase) with width 2 and fill `0`.  The `snprintf("%02x")` path taken when
the stream is not good writes the same characters and is not modelled apart. -/
def asciiToHex (asciiData : List Nat) : List Char :=
  asciiData.foldl (fun ss val => ss ++ setwFill 2 '0' (Nat.toDigits 16 (val % 256))) []

/-- The two hexadecimal digits of a byte. -/
def hexPair (b : Nat) : List Char := [Nat.digitChar (b / 16), Nat.digitChar (b % 16)]

/-- Scan of `find_first_not_of`. -/
def findFirstNotOfFrom {α : Type} [DecidableEq α] (args : List α) : List α → Nat → Option Nat
  | [], _ => none
  | c :: cs, i => if c ∈ args then findFirstNotOfFrom args cs (i + 1) else some i

/-- `std::string::find_first_not_of(args)`. -/
def find_first_not_of {α : Type} [DecidableEq α] (str args : List α) : Option Nat :=
  findFirstNotOfFrom args str 0

/-- `std::string::find_last_not_of(args)`: the search of `find_first_not_of`
from the back. -/
def find_last_not_of {α : Type} [DecidableEq α] (str args : List α) : Option Nat :=
  (find_first_not_of str.reverse args).map fun k => str.length - 1 - k

/-- `Utils::leftTrim`. -/
def leftTrim {α : Type} [DecidableEq α] (str args : List α) : List α :=
  match find_first_not_of str args with
  | some pos => str.drop pos
  | none => str

/-- `Utils::rightTrim`. -/
def rightTrim {α : Type} [DecidableEq α] (str args : List α) : List α :=
  match find_last_not_of str args with
  | some pos => str.take (pos + 1)
  | none => str

/-- `Utils::trim`. -/
def trim {α : Type} [DecidableEq α] (str args : List α) : List α :=
  leftTrim (rightTrim str args) args

/-- `Utils::startsWith`; `str.compare(0, n, start) == 0` holds when the first
`n` characters of `str` are `start`. -/
def startsWith {α : Type} [DecidableEq α] (str start : List α) : Bool :=
  if !str.isEmpty && start.length ≤ str.length then
    decide (str.take start.length = start)
  else false

/-- `Utils::endsWith`. -/
def endsWith {α : Type} [DecidableEq α] (str ending : List α) : Bool :=
  if !str.isEmpty && ending.length ≤ str.length then
    decide ((str.drop (str.length - ending.length)).take ending.length = ending)
  else false

/-- `Utils::substrOnFirstOccurrence`. -/
def substrOnFirstOccurrence {α : Type} [DecidableEq α] (str args : List α) : List α :=
  match find str args 0 with
  | some pos => str.take pos
  | none => str

/-- `Utils::findRegexInString`.  The regular-expression engine is a parameter:
`regex_search input pattern` is `none` when there is no match and otherwise the
list `sm` of sub-matches; `sm[n]` past the end is an unmatched, empty
sub-match.  Returns the flag and the final value of `match`. -/
def findRegexInString {α Regex : Type} [DecidableEq α]
    (regex_search : List α → Regex → Option (List (List α)))
    (input matchOut : List α) (pattern : Regex) (matchIndex : Nat) (start : List α) :
    Bool × List α :=
  if start.isEmpty || startsWith input start then
    match regex_search input pattern with
    | some sm => (true, if matchIndex ≤ sm.length then sm.getD matchIndex [] else matchOut)
    | none => (false, matchOut)
  else (false, matchOut)

/-- The scan that the claim on `splitKeyValueNonEscapedDelimiter` describes, with
`i` the index of the first scanned character: from left to right, a delimiter
is the split point, an escape character consumes the character after it, any
other character is passed. -/
def scanSplitFrom {α : Type} [DecidableEq α] (delimiter escapeChar : α) :
    List α → Nat → Option Nat
  | [], _ => none
  | [c], i => if c = delimiter then some i else none
  | c :: c' :: cs, i =>
    if c = delimiter then some i
    else if c = escapeChar then scanSplitFrom delimiter escapeChar cs (i + 2)
    else scanSplitFrom delimiter escapeChar (c' :: cs) (i + 1)

/-- The pair that a split point stands for: the string cut at the split point,
or the whole string and the empty string when there is none. -/
def cutAt {α : Type} (str : List α) : Option Nat → List α × List α
  | some k => (str.take k, str.drop (k + 1))
  | none => (str, [])

/-- `std::toupper` in the "C" locale, on a character value. -/
def toupper (ch : Nat) : Nat := if 97 ≤ ch ∧ ch ≤ 122 then ch - 32 else ch

/-- `Utils::toUpperCase`: `std::transform` with `std::toupper` over a copy of
the string, each result converted back to `char`. -/
def toUpperCase (str : List Nat) : List Nat :=
  str.map fun character => toupper character % 256

end Utils

/-! ## Part III.  Windows agent (`win32/win_utils.c`) -/

namespace Win32

/-- 32-bit two's complement value of an integer (the result of `int`
arithmetic). -/
def wrapInt32 (x : Int) : Int := (x + 2147483648) % 4294967296 - 2147483648

/-- The normalization of `agt->notify_time` and `agt->max_time_reconnect_try` in
`local_start`; the constants `NOTIFY_TIME` and `RECONNECT_TIME`, not defined in
the available sources, are parameters.  Returns the two fields. -/
def normalizeReconnect (NOTIFY_TIME RECONNECT_TIME : Int)
    (notify_time max_time_reconnect_try : Int) : Int × Int :=
  let notify_time := if notify_time = 0 then NOTIFY_TIME else notify_time
  let max_time_reconnect_try :=
    if max_time_reconnect_try = 0 then RECONNECT_TIME else max_time_reconnect_try
  let max_time_reconnect_try :=
    if max_time_reconnect_try ≤ notify_time then wrapInt32 (notify_time * 3)
    else max_time_reconnect_try
  (notify_time, max_time_reconnect_try)

/-- Results of `WaitForSingleObject`; `WAIT_FAILED` stands for every other
value. -/
inductive WaitResult where
  | WAIT_OBJECT_0 | WAIT_TIMEOUT | WAIT_ABANDONED | WAIT_FAILED
deriving DecidableEq, Repr

/-- What the collaborators of `SendMSGAction` answer during one call: the
results of the successive waits on `hMutex`, whether `wstr_escape` reports
`OS_INVALID`, the flag `agt->buffer`, and the result of `send_msg`. -/
structure SendWorld where
  waits : List WaitResult
  escapeInvalid : Bool
  buffer : Bool
  send_msg : Int
deriving DecidableEq

/-- Outcome of one call of `SendMSGAction`: the returned value, whether the
wait returned `WAIT_OBJECT_0` (lock acquired), and whether the calling thread
still holds `hMutex` when the function returns. -/
structure SendOutcome where
  retval : Int
  acquired : Bool
  mutexHeld : Bool
deriving DecidableEq

/-- The `while (1)` loop on the mutex: a timeout waits again, any other result
leaves the loop; `none` when every wait so far has timed out. -/
def waitForMutex : List WaitResult → Option WaitResult
  | [] => none
  | .WAIT_TIMEOUT :: rest => waitForMutex rest
  | r :: _ => some r

/-- `ReleaseMutex(hMutex)` by the calling thread: succeeds exactly when the
thread holds the mutex; returns the success flag and whether the mutex is still
held. -/
def ReleaseMutex (held : Bool) : Bool × Bool := if held then (true, false) else (false, false)

/-- `SendMSGAction`, with the ownership of `hMutex` by the calling thread passed
along explicitly. -/
def SendMSGAction (w : SendWorld) : Option SendOutcome :=
  match waitForMutex w.waits with
  | none => none
  | some .WAIT_OBJECT_0 =>
    let held := true
    if w.escapeInvalid then some { retval := -1, acquired := true, mutexHeld := held }
    else
      let retval : Int :=
        if !w.buffer then (if 0 ≤ w.send_msg then 0 else -1) else 0
      some { retval := retval, acquired := true, mutexHeld := (ReleaseMutex held).2 }
  | some _ => some { retval := -1, acquired := false, mutexHeld := false }

end Win32

/-! ## Part IV.  Logcollector requests (`logcollector/lccom.c`) -/

namespace LcCom

/-- JSON documents as far as `lccom.c` builds them. -/
inductive Json where
  | num (n : Int)
  | str (s : String)
  | obj (items : List (String × Json))

/-- The collaborators of the request handlers: the statistics and configuration
getters (`none` for a null document) and the printer of the cJSON library. -/
structure Env where
  w_logcollector_state_get : Option Json
  getLocalfileConfig : Option Json
  getSocketConfig : Option Json
  getLogcollectorInternalOptions : Option Json
  cJSON_PrintUnformatted : Json → List Char

/-- `lccom_getstate`: the output string and the returned size, `strlen` of the
output. -/
def lccom_getstate (env : Env) : List Char × Nat :=
  let w_packet :=
    match env.w_logcollector_state_get with
    | none => Json.obj [("error", .num 1), ("data", .obj []),
        ("message", .str "Statistics unavailable")]
    | some state_json => Json.obj [("error", .num 0), ("data", state_json)]
  let output := env.cJSON_PrintUnformatted w_packet
  (output, output.length)

/-- The error exit of `lccom_getconfig` (label `error`). -/
def getconfigError : List Char × Nat :=
  ("err Could not get requested section".toList,
    "err Could not get requested section".toList.length)

/-- Modelled from the spec: `wm_strcat`, which the available sources call but do
not define, appends the separator and then the second string to the first
string, and copies the second string when there is no first string. -/
def wm_strcat (str1 : Option (List Char)) (str2 : List Char) (sep : Char) : List Char :=
  match str1 with
  | none => str2
  | some s => s ++ sep :: str2

/-- The success path of `lccom_getconfig`: `ok`, then the printed document
appended by `wm_strcat` after a space. -/
def getconfigOk (env : Env) (cfg : Json) : List Char × Nat :=
  let output := "ok".toList
  let json_str := env.cJSON_PrintUnformatted cfg
  let output := wm_strcat (some output) json_str ' '
  (output, output.length)

/-- `lccom_getconfig`. -/
def lccom_getconfig (env : Env) (section_ : List Char) : List Char × Nat :=
  if section_ = "localfile".toList then
    match env.getLocalfileConfig with
    | some cfg => getconfigOk env cfg
    | none => getconfigError
  else if section_ = "socket".toList then
    match env.getSocketConfig with
    | some cfg => getconfigOk env cfg
    | none => getconfigError
  else if section_ = "internal".toList then
    match env.getLogcollectorInternalOptions with
    | some cfg => getconfigOk env cfg
    | none => getconfigError
  else getconfigError

/-- The document of a section as the claim names it: the answer of the getter
of `localfile`, `socket` or `internal`, and nothing for any other section. -/
def sectionConfig (env : Env) (section_ : List Char) : Option Json :=
  if section_ = "localfile".toList then env.getLocalfileConfig
  else if section_ = "socket".toList then env.getSocketConfig
  else if section_ = "internal".toList then env.getLogcollectorInternalOptions
  else none

/-- The command word: the characters before the first space (`strchr` writes a
NUL there). -/
def rcv_comm (command : List Char) : List Char := command.takeWhile (· ≠ ' ')

/-- The arguments: what follows the first space, `none` when there is no
space. -/
def rcv_args (command : List Char) : Option (List Char) :=
  if ' ' ∈ command then some ((command.dropWhile (· ≠ ' ')).drop 1) else none

/-- `lccom_dispatch`. -/
def lccom_dispatch (env : Env) (command : List Char) : List Char × Nat :=
  if rcv_comm command = "getconfig".toList then
    match rcv_args command with
    | none => ("err LCCOM getconfig needs arguments".toList,
        "err LCCOM getconfig needs arguments".toList.length)
    | some args => lccom_getconfig env args
  else if rcv_comm command = "getstate".toList then lccom_getstate env
  else ("err Unrecognized command".toList, "err Unrecognized command".toList.length)

end LcCom

/-! ## Part V.  System information (`data_provider/src/sysInfoMac.cpp`) -/

namespace SysInfo

/-- Modelled from the spec: the constant `KByte`, which the available sources
use but do not define; one KiB is 1024 bytes. -/
def KByte : Nat := 1024

/-- `SysInfo::getMemory` after the three `sysctl` reads have succeeded, on the
values read (`ram` and `freePages` of 64 bits, `pageSize` of 32 bits): the
fields `ram_total`, `ram_free` and `ram_usage`, in 64-bit unsigned arithmetic;
`none` when the division by `ramTotal` is a division by zero. -/
def getMemory (ram pageSize freePages : Nat) : Option (Nat × Nat × Nat) :=
  let ramTotal := ram / KByte
  let ramFree := (freePages * pageSize % 18446744073709551616) / KByte
  if ramTotal = 0 then none
  else
    some (ramTotal, ramFree,
      (100 + 18446744073709551616 - (100 * ramFree % 18446744073709551616) / ramTotal)
        % 18446744073709551616)

end SysInfo

namespace Sched

/-! ## Part I.  Properties of the normalizer -/

/-- The week count chosen by the Weekly rule is at least one and covers the
supplied seconds. -/
theorem weeksFor_spec (s : Nat) : 1 ≤ weeksFor s ∧ s ≤ weeksFor s * WEEK_SECONDS := by
  unfold weeksFor WEEK_SECONDS
  omega

/-- No smaller positive week count covers the supplied seconds. -/
theorem weeksFor_least (s j : Nat) (hj : 1 ≤ j) (h : s ≤ j * WEEK_SECONDS) :
    weeksFor s ≤ j := by
  unfold weeksFor WEEK_SECONDS at *
  omega

/-- The Weekly rule of the normalizer, as an equation. -/
theorem normalize_weekly (WM_DEF_INTERVAL : Nat) (c : RawConfig) (w : Fin 7) (t : TimeOfDay)
    (hw : c.weekday = some w) (ht : c.time_of_day = some t) (hm : c.month_day = none) :
    normalize WM_DEF_INTERVAL c = .ok
      ({ interval := .seconds (weeksFor ((suppliedSeconds c.interval).getD 0) * WEEK_SECONDS),
         month_day := none, weekday := some w, time_of_day := some t,
         run_on_start := c.run_on_start, next_run_time := 0 },
       if c.interval =
           some (.seconds (weeksFor ((suppliedSeconds c.interval).getD 0) * WEEK_SECONDS))
         then [] else [.weeklyMultiple (weeksFor ((suppliedSeconds c.interval).getD 0))]) := by
  simp only [normalize, hw, ht, hm]

/-- The Monthly rule of the normalizer, as an equation. -/
theorem normalize_monthly (WM_DEF_INTERVAL : Nat) (c : RawConfig) (m : MonthDay)
    (t : TimeOfDay) (hm : c.month_day = some m) (ht : c.time_of_day = some t)
    (hw : c.weekday = none) :
    normalize WM_DEF_INTERVAL c = .ok
      ({ interval := .months (monthsFor c.interval),
         month_day := some m, weekday := none, time_of_day := some t,
         run_on_start := c.run_on_start, next_run_time := 0 },
       if c.interval = some (.months (monthsFor c.interval))
         then [] else [.monthlyMultiple (monthsFor c.interval)]) := by
  simp only [normalize, hw, ht, hm]

/-- C1: a raw configuration with a weekday and a time of day and no month day
normalizes to policy Weekly; its interval is the least positive multiple of
604800 seconds that is at least the supplied interval (604800 when none is
supplied), and a corrective diagnostic is emitted exactly when the supplied
interval was not already that value.  The Monday 04:30 configuration of the unit
test yields interval 604800, `scan_wday` 1, `scan_day` 0, `month_interval` false,
`scan_time` 04:30 and the warning about one week. -/
theorem C1_weekly_normalization (WM_DEF_INTERVAL : Nat) (c : RawConfig) (w : Fin 7)
    (t : TimeOfDay) (hw : c.weekday = some w) (ht : c.time_of_day = some t)
    (hm : c.month_day = none) :
    (∃ d diags T, normalize WM_DEF_INTERVAL c = .ok (d, diags) ∧
      d.policy = .Weekly ∧ d.weekday = some w ∧ d.time_of_day = some t ∧
      d.month_day = none ∧ d.interval = .seconds T ∧
      IsLeast {m | (∃ k, 1 ≤ k ∧ m = k * 604800) ∧ (suppliedSeconds c.interval).getD 0 ≤ m} T ∧
      (c.interval = none → T = 604800) ∧
      (diags ≠ [] ↔ c.interval ≠ some (.seconds T))) ∧
    (∃ d diags, normalize WM_DEF_INTERVAL mondayConfig = .ok (d, diags) ∧
      d.interval.count = 604800 ∧ d.scan_wday = 1 ∧ d.scan_day = 0 ∧
      d.interval.isMonths = false ∧ d.scan_time = some "04:30" ∧
      diags.map Diagnostic.message =
        ["Interval must be a multiple of one week. New interval value: 1w"]) := by
  refine ⟨?_, ?_⟩
  · obtain ⟨h1, h2⟩ := weeksFor_spec ((suppliedSeconds c.interval).getD 0)
    refine ⟨_, _, weeksFor ((suppliedSeconds c.interval).getD 0) * WEEK_SECONDS,
      normalize_weekly WM_DEF_INTERVAL c w t hw ht hm, ?_⟩
    refine ⟨rfl, rfl, rfl, rfl, rfl, ⟨⟨⟨_, h1, rfl⟩, h2⟩, ?_⟩, ?_, ?_⟩
    · rintro m ⟨⟨j, hj, rfl⟩, hle⟩
      exact Nat.mul_le_mul_right _ (weeksFor_least _ j hj hle)
    · intro hnone
      rw [hnone]
      rfl
    · by_cases hc : c.interval =
          some (.seconds (weeksFor ((suppliedSeconds c.interval).getD 0) * WEEK_SECONDS))
      · rw [if_pos hc]
        exact ⟨fun h => absurd rfl h, fun h => absurd hc h⟩
      · rw [if_neg hc]
        exact ⟨fun _ => hc, fun _ => List.cons_ne_nil _ _⟩
  · exact ⟨_, _, rfl, by decide, by decide, by decide, by decide, by decide, by decide⟩

/-- C1, instance: a supplied interval of eight days with weekday Wednesday is
forced to two weeks, with a diagnostic. -/
theorem C1_weekly_normalization_witness :
    (∃ d diags T, normalize 86400
        { interval := some (.seconds 691200), month_day := none, weekday := some 3,
          time_of_day := some ⟨4, 30⟩, run_on_start := true } = .ok (d, diags) ∧
      d.policy = .Weekly ∧ d.weekday = some 3 ∧ d.time_of_day = some ⟨4, 30⟩ ∧
      d.month_day = none ∧ d.interval = .seconds T ∧
      IsLeast {m | (∃ k, 1 ≤ k ∧ m = k * 604800) ∧
        (suppliedSeconds (some (.seconds 691200))).getD 0 ≤ m} T ∧
      ((some (Interval.seconds 691200) : Option Interval) = none → T = 604800) ∧
      (diags ≠ [] ↔ (some (Interval.seconds 691200) : Option Interval) ≠ some (.seconds T))) :=
  (C1_weekly_normalization 86400
    { interval := some (.seconds 691200), month_day := none, weekday := some 3,
      time_of_day := some ⟨4, 30⟩, run_on_start := true } 3 ⟨4, 30⟩ rfl rfl rfl).1

/-- C2: a raw configuration with a month day and a time of day and no weekday
normalizes to policy Monthly with the interval held as a month count of at least
one; an interval supplied in seconds, or none at all, is overridden by one month
with a corrective diagnostic.  The day 7, 03:30 configuration of the unit test
yields `scan_day` 7, interval 1, `month_interval` true, `scan_wday` -1,
`scan_time` 03:30 and the warning about one month. -/
theorem C2_monthly_normalization (WM_DEF_INTERVAL : Nat) (c : RawConfig) (m : MonthDay)
    (t : TimeOfDay) (hm : c.month_day = some m) (ht : c.time_of_day = some t)
    (hw : c.weekday = none) :
    (∃ d diags k, normalize WM_DEF_INTERVAL c = .ok (d, diags) ∧
      d.policy = .Monthly ∧ d.month_day = some m ∧ d.time_of_day = some t ∧
      d.weekday = none ∧ d.interval = .months k ∧ 1 ≤ k ∧
      (suppliedSeconds c.interval ≠ none ∨ c.interval = none →
        k = 1 ∧ diags = [.monthlyMultiple 1]) ∧
      (diags ≠ [] ↔ c.interval ≠ some (.months k))) ∧
    (∃ d diags, normalize WM_DEF_INTERVAL day7Config = .ok (d, diags) ∧
      d.scan_day = 7 ∧ d.interval.count = 1 ∧ d.interval.isMonths = true ∧
      d.scan_wday = -1 ∧ d.scan_time = some "03:30" ∧
      diags.map Diagnostic.message =
        ["Interval must be a multiple of one month. New interval value: 1M"]) := by
  refine ⟨?_, ?_⟩
  · refine ⟨_, _, monthsFor c.interval, normalize_monthly WM_DEF_INTERVAL c m t hm ht hw, ?_⟩
    refine ⟨rfl, rfl, rfl, rfl, rfl, ?_, ?_, ?_⟩
    · rcases c.interval with _ | (s | n)
      · exact Nat.le_refl 1
      · exact Nat.le_refl 1
      · exact Nat.le_max_left 1 n
    · rcases c.interval with _ | (s | n)
      · intro _
        exact ⟨rfl, rfl⟩
      · intro _
        exact ⟨rfl, rfl⟩
      · intro h
        rcases h with h | h
        · exact absurd rfl h
        · exact absurd h (by simp)
    · by_cases hc : c.interval = some (.months (monthsFor c.interval))
      · rw [if_pos hc]
        exact ⟨fun h => absurd rfl h, fun h => absurd hc h⟩
      · rw [if_neg hc]
        exact ⟨fun _ => hc, fun _ => List.cons_ne_nil _ _⟩
  · exact ⟨_, _, rfl, by decide, by decide, by decide, by decide, by decide, by decide⟩

/-- C2, instance: day 31 at 23:59 with a supplied interval of two hours. -/
theorem C2_monthly_normalization_witness :
    ∃ d diags k, normalize 86400
        { interval := some (.seconds 7200), month_day := some ⟨31, by decide, by decide⟩,
          weekday := none, time_of_day := some ⟨23, 59⟩, run_on_start := false }
          = .ok (d, diags) ∧
      d.policy = .Monthly ∧ d.month_day = some ⟨31, by decide, by decide⟩ ∧
      d.time_of_day = some ⟨23, 59⟩ ∧
      d.weekday = none ∧ d.interval = .months k ∧ 1 ≤ k ∧
      (suppliedSeconds (some (.seconds 7200)) ≠ none ∨
        (some (Interval.seconds 7200) : Option Interval) = none →
        k = 1 ∧ diags = [.monthlyMultiple 1]) ∧
      (diags ≠ [] ↔ (some (Interval.seconds 7200) : Option Interval) ≠ some (.months k)) :=
  (C2_monthly_normalization 86400
    { interval := some (.seconds 7200), month_day := some ⟨31, by decide, by decide⟩,
      weekday := none, time_of_day := some ⟨23, 59⟩, run_on_start := false }
    ⟨31, by decide, by decide⟩ ⟨23, 59⟩ rfl rfl rfl).1

/-- C3: a raw configuration that sets only a time of day normalizes to policy
DailyTime with the module default interval, month day and weekday absent, and no
corrective diagnostic.  The 05:30 configuration of the unit test yields
`scan_day` 0, interval `WM_DEF_INTERVAL`, `month_interval` false, `scan_wday` -1
and `scan_time` 05:30. -/
theorem C3_daytime_normalization (WM_DEF_INTERVAL : Nat) (c : RawConfig) (t : TimeOfDay)
    (ht : c.time_of_day = some t) (hi : c.interval = none) (hm : c.month_day = none)
    (hw : c.weekday = none) :
    (∃ d, normalize WM_DEF_INTERVAL c = .ok (d, []) ∧
      d.policy = .DailyTime ∧ d.interval = .seconds WM_DEF_INTERVAL ∧
      d.month_day = none ∧ d.weekday = none ∧ d.time_of_day = some t) ∧
    (∃ d, normalize WM_DEF_INTERVAL daytimeConfig = .ok (d, []) ∧
      d.scan_day = 0 ∧ d.interval.count = WM_DEF_INTERVAL ∧ d.interval.isMonths = false ∧
      d.scan_wday = -1 ∧ d.scan_time = some "05:30") := by
  refine ⟨⟨{ interval := .seconds WM_DEF_INTERVAL, month_day := none, weekday := none,
              time_of_day := some t, run_on_start := c.run_on_start, next_run_time := 0 },
            ?_, rfl, rfl, rfl, rfl, rfl⟩, ⟨_, rfl, rfl, rfl, rfl, rfl, rfl⟩⟩
  simp only [normalize, hw, ht, hm, hi]
  rfl

/-- C3, instance: 12:00 with run-on-start, default interval one day. -/
theorem C3_daytime_normalization_witness :
    ∃ d, normalize 86400
        { interval := none, month_day := none, weekday := none,
          time_of_day := some ⟨12, 0⟩, run_on_start := true } = .ok (d, []) ∧
      d.policy = .DailyTime ∧ d.interval = .seconds 86400 ∧
      d.month_day = none ∧ d.weekday = none ∧ d.time_of_day = some ⟨12, 0⟩ :=
  (C3_daytime_normalization 86400
    { interval := none, month_day := none, weekday := none,
      time_of_day := some ⟨12, 0⟩, run_on_start := true } ⟨12, 0⟩ rfl rfl rfl rfl).1

/-- C4: a raw configuration in which both weekday and month day are set is
rejected with a `ConfigurationError`, whatever the other fields hold; no
descriptor is produced. -/
theorem C4_day_and_weekday_conflict (WM_DEF_INTERVAL : Nat) (c : RawConfig) (w : Fin 7)
    (m : MonthDay) (hw : c.weekday = some w) (hm : c.month_day = some m) :
    normalize WM_DEF_INTERVAL c = .error .dayAndWeekday ∧
    ∀ d diags, normalize WM_DEF_INTERVAL c ≠ .ok (d, diags) := by
  have h : normalize WM_DEF_INTERVAL c = .error .dayAndWeekday := by
    simp only [normalize, hw, hm]
  refine ⟨h, ?_⟩
  intro d diags hok
  rw [h] at hok
  cases hok

/-- C4, instance: Monday together with day 7. -/
theorem C4_day_and_weekday_conflict_witness :
    normalize 86400
      { interval := some (.seconds 7200),
        month_day := some ⟨7, by decide, by decide⟩, weekday := some 1,
        time_of_day := some ⟨3, 30⟩, run_on_start := false } = .error .dayAndWeekday ∧
    ∀ d diags, normalize 86400
      { interval := some (.seconds 7200),
        month_day := some ⟨7, by decide, by decide⟩, weekday := some 1,
        time_of_day := some ⟨3, 30⟩, run_on_start := false } ≠ .ok (d, diags) :=
  C4_day_and_weekday_conflict 86400 _ 1 ⟨7, by decide, by decide⟩ rfl rfl

/-- Re-reading a forced weekly interval leaves the week count unchanged. -/
theorem weeksFor_fixed (s : Nat) : weeksFor (weeksFor s * WEEK_SECONDS) = weeksFor s := by
  have h1 := (weeksFor_spec s).1
  generalize weeksFor s = k at h1
  unfold weeksFor WEEK_SECONDS
  omega

/-- The seconds supplied by an interval given in seconds. -/
theorem suppliedSeconds_seconds (n : Nat) :
    (suppliedSeconds (some (Interval.seconds n))).getD 0 = n := by
  simp only [suppliedSeconds, Option.getD_some]

/-- C7: normalization is idempotent.  Whenever normalization of a raw
configuration succeeds, normalizing the resulting descriptor again succeeds,
yields the very same descriptor and emits no corrective diagnostic. -/
theorem C7_normalize_idempotent (WM_DEF_INTERVAL : Nat) (c : RawConfig) (d : Descriptor)
    (diags : List Diagnostic) (h : normalize WM_DEF_INTERVAL c = .ok (d, diags)) :
    normalize WM_DEF_INTERVAL d.toRaw = .ok (d, []) := by
  rcases hw : c.weekday with _ | w <;> rcases hm : c.month_day with _ | m <;>
    rcases ht : c.time_of_day with _ | t <;>
    simp only [normalize, hw, hm, ht, Except.ok.injEq, Prod.mk.injEq, reduceCtorEq] at h
  · obtain ⟨rfl, -⟩ := h
    rcases c.interval with _ | (s | n)
    · by_cases h0 : 0 < WM_DEF_INTERVAL <;>
        simp [normalize, Descriptor.toRaw, suppliedSeconds, h0]
    · by_cases h0 : 0 < s
      · simp [normalize, Descriptor.toRaw, suppliedSeconds, h0]
      · by_cases h1 : 0 < WM_DEF_INTERVAL <;>
          simp [normalize, Descriptor.toRaw, suppliedSeconds, h0, h1]
    · by_cases h0 : 0 < WM_DEF_INTERVAL <;>
        simp [normalize, Descriptor.toRaw, suppliedSeconds, h0]
  · obtain ⟨rfl, -⟩ := h
    simp [normalize, Descriptor.toRaw]
  · obtain ⟨rfl, -⟩ := h
    have hk : monthsFor (some (Interval.months (monthsFor c.interval))) = monthsFor c.interval := by
      rcases c.interval with _ | (s | n)
      · rfl
      · rfl
      · simp [monthsFor]
    simp only [normalize, Descriptor.toRaw, hk, if_true]
  · obtain ⟨rfl, -⟩ := h
    simp only [normalize, Descriptor.toRaw, suppliedSeconds_seconds, weeksFor_fixed, if_true]

/-- C7, instance: the Monday 04:30 configuration, normalized twice. -/
theorem C7_normalize_idempotent_witness :
    normalize 86400 (Descriptor.toRaw
      { interval := .seconds 604800, month_day := none, weekday := some 1,
        time_of_day := some ⟨4, 30⟩, run_on_start := false, next_run_time := 0 }) =
    .ok ({ interval := .seconds 604800, month_day := none, weekday := some 1,
           time_of_day := some ⟨4, 30⟩, run_on_start := false, next_run_time := 0 }, []) :=
  C7_normalize_idempotent 86400 mondayConfig _ [.weeklyMultiple 1] rfl

/-! ## Part I.  Properties of the Next-Run Calculator -/

/-- A time of day lies within one day. -/
theorem TimeOfDay.toSeconds_lt (t : TimeOfDay) : t.toSeconds < DAY_SECONDS := by
  have h1 := t.hour.isLt
  have h2 := t.minute.isLt
  unfold TimeOfDay.toSeconds DAY_SECONDS
  omega

/-- Clock reading of an instant given as a whole number of days plus a time of
day. -/
theorem clockOf_days_add (n : Nat) (t : TimeOfDay) :
    clockOf (n * DAY_SECONDS + t.toSeconds) = (t.hour.val, t.minute.val, 0) := by
  have h1 := t.hour.isLt
  have h2 := t.minute.isLt
  unfold clockOf TimeOfDay.toSeconds DAY_SECONDS
  refine Prod.ext ?_ (Prod.ext ?_ ?_) <;> simp only <;> omega

/-- Day number of an instant given as a whole number of days plus a time of
day. -/
theorem days_add_div (n : Nat) (t : TimeOfDay) :
    (n * DAY_SECONDS + t.toSeconds) / DAY_SECONDS = n := by
  have h := t.toSeconds_lt
  unfold DAY_SECONDS at *
  omega

/-- A normalized descriptor with a weekday carries a time of day. -/
theorem normalized_weekday_time (WM_DEF_INTERVAL : Nat) (d : Descriptor) (w : Fin 7)
    (hn : d.Normalized WM_DEF_INTERVAL) (hw : d.weekday = some w) :
    ∃ t, d.time_of_day = some t := by
  obtain ⟨c, diags, h⟩ := hn
  rcases hcw : c.weekday with _ | w1 <;> rcases hcm : c.month_day with _ | m <;>
    rcases hct : c.time_of_day with _ | t <;>
    simp only [normalize, hcw, hcm, hct, Except.ok.injEq, Prod.mk.injEq, reduceCtorEq] at h
  · obtain ⟨rfl, -⟩ := h
    simp at hw
  · obtain ⟨rfl, -⟩ := h
    simp at hw
  · obtain ⟨rfl, -⟩ := h
    simp at hw
  · obtain ⟨rfl, -⟩ := h
    exact ⟨t, rfl⟩

/-- The weekly next-run instant is strictly in the future, on the requested
weekday, at the requested time of day. -/
theorem nextWeekly_spec (w : Fin 7) (t : TimeOfDay) (now : Nat) :
    now < nextWeekly w t now ∧ weekdayOf (nextWeekly w t now) = w.val ∧
      clockOf (nextWeekly w t now) = (t.hour.val, t.minute.val, 0) := by
  have hw := w.isLt
  have ht := t.toSeconds_lt
  unfold nextWeekly
  simp only
  split
  · next hlt =>
    refine ⟨hlt, ?_, clockOf_days_add _ t⟩
    unfold weekdayOf
    rw [days_add_div]
    omega
  · next hge =>
    have e : (now / DAY_SECONDS + (w.val + 7 - weekdayOf now) % 7) * DAY_SECONDS + t.toSeconds
        + 7 * DAY_SECONDS =
        (now / DAY_SECONDS + (w.val + 7 - weekdayOf now) % 7 + 7) * DAY_SECONDS + t.toSeconds := by
      ring
    rw [e]
    refine ⟨?_, ?_, clockOf_days_add _ t⟩
    · unfold DAY_SECONDS at *
      omega
    · unfold weekdayOf
      rw [days_add_div]
      omega

/-- C5: for every normalized descriptor with a weekday set and every current
time, `compute_next` is strictly after the current time, falls on the configured
weekday, and its wall-clock time is the configured time of day (seconds 0). -/
theorem C5_weekly_next_run (WM_DEF_INTERVAL : Nat) (d : Descriptor) (w : Fin 7) (now : Nat)
    (hn : d.Normalized WM_DEF_INTERVAL) (hw : d.weekday = some w) :
    ∃ t, d.time_of_day = some t ∧ now < compute_next d now ∧
      weekdayOf (compute_next d now) = w.val ∧
      clockOf (compute_next d now) = (t.hour.val, t.minute.val, 0) := by
  obtain ⟨t, ht⟩ := normalized_weekday_time WM_DEF_INTERVAL d w hn hw
  refine ⟨t, ht, ?_⟩
  have e : compute_next d now = nextWeekly w t now := by
    simp only [compute_next, hw, ht, Option.getD_some]
  rw [e]
  exact nextWeekly_spec w t now

/-- C5, instance: Monday 04:30, asked on Thursday 1970-01-01 00:00. -/
theorem C5_weekly_next_run_witness :
    ∃ t, mondayDescriptor.time_of_day = some t ∧ 0 < compute_next mondayDescriptor 0 ∧
      weekdayOf (compute_next mondayDescriptor 0) = (1 : Fin 7).val ∧
      clockOf (compute_next mondayDescriptor 0) = (t.hour.val, t.minute.val, 0) :=
  C5_weekly_next_run 86400 mondayDescriptor 1 0 ⟨mondayConfig, [.weeklyMultiple 1], rfl⟩ rfl

/-- Every calendar month has between 28 and 31 days. -/
theorem monthLength_bounds (mi : Nat) : 28 ≤ monthLength mi ∧ monthLength mi ≤ 31 := by
  unfold monthLength daysInMonth
  split_ifs <;> omega

/-- Month starts are monotone in the month index. -/
theorem monthStart_mono {a b : Nat} (h : a ≤ b) : monthStart a ≤ monthStart b := by
  induction b with
  | zero =>
    have : a = 0 := by omega
    subst this
    exact Nat.le_refl _
  | succ n ih =>
    rcases Nat.eq_or_lt_of_le h with rfl | hlt
    · exact Nat.le_refl _
    · have := ih (by omega)
      simp only [monthStart]
      omega

/-- The month search returns a month and an offset inside that month that denote
the same day. -/
theorem civilAux_spec (fuel mi days : Nat) (h : days ≤ fuel) :
    monthStart (civilAux fuel mi days).1 + (civilAux fuel mi days).2 = monthStart mi + days ∧
      (civilAux fuel mi days).2 < monthLength (civilAux fuel mi days).1 := by
  induction fuel generalizing mi days with
  | zero =>
    have hb := monthLength_bounds mi
    have : days = 0 := by omega
    subst this
    refine ⟨rfl, ?_⟩
    show 0 < monthLength mi
    omega
  | succ n ih =>
    have hb := monthLength_bounds mi
    simp only [civilAux]
    split
    · next hlt => exact ⟨rfl, hlt⟩
    · next hge =>
      obtain ⟨h1, h2⟩ := ih (mi + 1) (days - monthLength mi) (by omega)
      refine ⟨?_, h2⟩
      rw [h1]
      simp only [monthStart]
      omega

/-- A day lies in exactly one month. -/
theorem month_unique {a b x y : Nat} (hx : x < monthLength a) (hy : y < monthLength b)
    (h : monthStart a + x = monthStart b + y) : a = b ∧ x = y := by
  have key : ∀ {a b x y : Nat}, x < monthLength a → monthStart a + x = monthStart b + y →
      ¬ a < b := by
    intro a b x y hx h hlt
    have h1 : monthStart (a + 1) ≤ monthStart b := monthStart_mono hlt
    simp only [monthStart] at h1
    omega
  have h1 := key hx h
  have h2 := key hy h.symm
  have hab : a = b := by omega
  subst hab
  exact ⟨rfl, by omega⟩

/-- Calendar decomposition of day `k` (zero-based) of month `mi`. -/
theorem civil_monthStart_add (mi k : Nat) (hk : k < monthLength mi) :
    civil (monthStart mi + k) = (mi, k) := by
  obtain ⟨h1, h2⟩ := civilAux_spec (monthStart mi + k) 0 (monthStart mi + k) (Nat.le_refl _)
  simp only [monthStart, Nat.zero_add] at h1
  obtain ⟨e1, e2⟩ := month_unique h2 hk h1
  unfold civil
  exact Prod.ext e1 e2

/-- The month of an instant contains the instant. -/
theorem monthIndexOf_bounds (now : Nat) :
    monthStart (monthIndexOf now) * DAY_SECONDS ≤ now ∧
      now < monthStart (monthIndexOf now + 1) * DAY_SECONDS := by
  obtain ⟨h1, h2⟩ := civilAux_spec (now / DAY_SECONDS) 0 (now / DAY_SECONDS) (Nat.le_refl _)
  simp only [monthStart, Nat.zero_add] at h1
  unfold monthIndexOf civil
  simp only [monthStart]
  generalize monthStart (civilAux (now / DAY_SECONDS) 0 (now / DAY_SECONDS)).1 = S at *
  generalize monthLength (civilAux (now / DAY_SECONDS) 0 (now / DAY_SECONDS)).1 = L at *
  generalize (civilAux (now / DAY_SECONDS) 0 (now / DAY_SECONDS)).2 = x at *
  unfold DAY_SECONDS at *
  omega

/-- The firing instant of a month lies inside that month. -/
theorem monthCandidate_bounds (md : MonthDay) (t : TimeOfDay) (mi : Nat) :
    monthStart mi * DAY_SECONDS ≤ monthCandidate md t mi ∧
      monthCandidate md t mi < monthStart (mi + 1) * DAY_SECONDS := by
  have hb := monthLength_bounds mi
  have ht := t.toSeconds_lt
  have hp := md.pos
  unfold monthCandidate
  simp only [monthStart]
  generalize monthStart mi = S at *
  generalize monthLength mi = L at *
  unfold DAY_SECONDS at *
  omega

/-- Firing instants are ordered like their months. -/
theorem monthCandidate_mono (md : MonthDay) (t : TimeOfDay) {a b : Nat} (h : a ≤ b) :
    monthCandidate md t a ≤ monthCandidate md t b := by
  rcases Nat.eq_or_lt_of_le h with rfl | hlt
  · exact Nat.le_refl _
  · have h1 := (monthCandidate_bounds md t a).2
    have h2 := (monthCandidate_bounds md t b).1
    have h3 : monthStart (a + 1) ≤ monthStart b := monthStart_mono hlt
    have h4 := Nat.mul_le_mul_right DAY_SECONDS h3
    omega

/-- Month, day of month and clock reading of the firing instant of a month. -/
theorem monthCandidate_civil (md : MonthDay) (t : TimeOfDay) (mi : Nat) :
    monthIndexOf (monthCandidate md t mi) = mi ∧
      dayOfMonthOf (monthCandidate md t mi) = min md.val (monthLength mi) ∧
      clockOf (monthCandidate md t mi) = (t.hour.val, t.minute.val, 0) := by
  have hb := monthLength_bounds mi
  have hp := md.pos
  have hk : min md.val (monthLength mi) - 1 < monthLength mi := by omega
  unfold monthIndexOf dayOfMonthOf monthCandidate
  rw [days_add_div, civil_monthStart_add mi _ hk]
  refine ⟨rfl, ?_, clockOf_days_add _ t⟩
  simp only
  omega

/-- A normalized descriptor with a month day has no weekday and carries a time
of day. -/
theorem normalized_monthday_time (WM_DEF_INTERVAL : Nat) (d : Descriptor) (md : MonthDay)
    (hn : d.Normalized WM_DEF_INTERVAL) (hm : d.month_day = some md) :
    d.weekday = none ∧ ∃ t, d.time_of_day = some t := by
  obtain ⟨c, diags, h⟩ := hn
  rcases hcw : c.weekday with _ | w1 <;> rcases hcm : c.month_day with _ | m <;>
    rcases hct : c.time_of_day with _ | t <;>
    simp only [normalize, hcw, hcm, hct, Except.ok.injEq, Prod.mk.injEq, reduceCtorEq] at h
  · obtain ⟨rfl, -⟩ := h
    simp at hm
  · obtain ⟨rfl, -⟩ := h
    simp at hm
  · obtain ⟨rfl, -⟩ := h
    exact ⟨rfl, t, rfl⟩
  · obtain ⟨rfl, -⟩ := h
    simp at hm

/-- The monthly next-run instant is the earliest firing instant after `now`: it
is the firing instant of its own month, which is the current month or the one
after it. -/
theorem nextMonthly_spec (md : MonthDay) (t : TimeOfDay) (now : Nat) :
    now < nextMonthly md t now ∧
      nextMonthly md t now = monthCandidate md t (monthIndexOf (nextMonthly md t now)) ∧
      (monthIndexOf (nextMonthly md t now) = monthIndexOf now ∨
        monthIndexOf (nextMonthly md t now) = monthIndexOf now + 1) ∧
      ∀ mi, now < monthCandidate md t mi → nextMonthly md t now ≤ monthCandidate md t mi := by
  have hnow := monthIndexOf_bounds now
  have hmin : ∀ mi, now < monthCandidate md t mi → monthIndexOf now ≤ mi := by
    intro mi hlt
    by_contra hcon
    have h1 := (monthCandidate_bounds md t mi).2
    have h2 : monthStart (mi + 1) ≤ monthStart (monthIndexOf now) :=
      monthStart_mono (by omega)
    have h3 := Nat.mul_le_mul_right DAY_SECONDS h2
    omega
  unfold nextMonthly
  split
  · next hlt =>
    refine ⟨hlt, ?_, Or.inl (monthCandidate_civil md t _).1, ?_⟩
    · rw [(monthCandidate_civil md t _).1]
    · intro mi h
      exact monthCandidate_mono md t (hmin mi h)
  · next hge =>
    refine ⟨?_, ?_, Or.inr (monthCandidate_civil md t _).1, ?_⟩
    · have h1 := (monthCandidate_bounds md t (monthIndexOf now + 1)).1
      omega
    · rw [(monthCandidate_civil md t _).1]
    · intro mi h
      have h1 := hmin mi h
      have h2 : mi ≠ monthIndexOf now := by
        rintro rfl
        exact hge h
      exact monthCandidate_mono md t (by omega)

/-- Asked at the firing instant of a month, the monthly calculator answers with
the firing instant of the following month. -/
theorem nextMonthly_candidate (md : MonthDay) (t : TimeOfDay) (mi : Nat) :
    nextMonthly md t (monthCandidate md t mi) = monthCandidate md t (mi + 1) := by
  unfold nextMonthly
  rw [(monthCandidate_civil md t mi).1]
  simp

/-- C6: for every normalized descriptor with a month day set and every current
time, `compute_next` is strictly after the current time, at the configured time
of day, and its day of month is the configured day, or the last day of its month
when the configured day exceeds that month's length.  No month is skipped: the
result is the earliest firing instant after the current time and lies in the
current month or the next one.  A second call at the first result falls in the
following calendar month, again on the configured or last day, so that the gap
is the calendar distance between the two dates, not a fixed 30 days: day 31
fires on 1970-01-31, then 28 days later on 1970-02-28, then 31 days later on
1970-03-31. -/
theorem C6_monthly_next_run (WM_DEF_INTERVAL : Nat) (d : Descriptor) (md : MonthDay)
    (now : Nat) (hn : d.Normalized WM_DEF_INTERVAL) (hm : d.month_day = some md) :
    (∃ t, d.time_of_day = some t ∧ now < compute_next d now ∧
      dayOfMonthOf (compute_next d now) =
        min md.val (monthLength (monthIndexOf (compute_next d now))) ∧
      clockOf (compute_next d now) = (t.hour.val, t.minute.val, 0) ∧
      (monthIndexOf (compute_next d now) = monthIndexOf now ∨
        monthIndexOf (compute_next d now) = monthIndexOf now + 1) ∧
      (∀ mi, now < monthCandidate md t mi → compute_next d now ≤ monthCandidate md t mi) ∧
      monthIndexOf (compute_next d (compute_next d now)) =
        monthIndexOf (compute_next d now) + 1 ∧
      dayOfMonthOf (compute_next d (compute_next d now)) =
        min md.val (monthLength (monthIndexOf (compute_next d now) + 1)) ∧
      compute_next d (compute_next d now) +
          min md.val (monthLength (monthIndexOf (compute_next d now))) * DAY_SECONDS =
        compute_next d now +
          (monthLength (monthIndexOf (compute_next d now)) +
            min md.val (monthLength (monthIndexOf (compute_next d now) + 1))) * DAY_SECONDS) ∧
    (compute_next day31Descriptor 0 = 30 * 86400 ∧
      compute_next day31Descriptor (30 * 86400) = (30 + 28) * 86400 ∧
      compute_next day31Descriptor ((30 + 28) * 86400) = (30 + 28 + 31) * 86400 ∧
      dayOfMonthOf ((30 + 28) * 86400) = 28 ∧ monthIndexOf ((30 + 28) * 86400) = 1 ∧
      dayOfMonthOf ((30 + 28 + 31) * 86400) = 31 ∧
      monthIndexOf ((30 + 28 + 31) * 86400) = 2) := by
  refine ⟨?_, by decide⟩
  obtain ⟨hw, t, ht⟩ := normalized_monthday_time WM_DEF_INTERVAL d md hn hm
  have e : ∀ x, compute_next d x = nextMonthly md t x := by
    intro x
    simp only [compute_next, hw, hm, ht, Option.getD_some]
  obtain ⟨h1, h2, h3, h4⟩ := nextMonthly_spec md t now
  refine ⟨t, ht, ?_⟩
  rw [e (compute_next d now), e now]
  generalize monthIndexOf (nextMonthly md t now) = mi at h2 h3 ⊢
  rw [h2] at h1 h4 ⊢
  rw [nextMonthly_candidate]
  obtain ⟨-, c2, c3⟩ := monthCandidate_civil md t mi
  obtain ⟨c4, c5, -⟩ := monthCandidate_civil md t (mi + 1)
  rw [c2, c3, c4, c5]
  refine ⟨h1, rfl, rfl, h3, h4, rfl, rfl, ?_⟩
  have hp := md.pos
  have hb := monthLength_bounds mi
  have hb2 := monthLength_bounds (mi + 1)
  unfold monthCandidate
  simp only [monthStart]
  generalize monthStart mi = S
  generalize monthLength mi = L at *
  generalize monthLength (mi + 1) = L2 at *
  unfold DAY_SECONDS
  omega

/-- C6, instance: day 31 at 00:00, asked on 1970-02-01 00:00. -/
theorem C6_monthly_next_run_witness :
    ∃ t, day31Descriptor.time_of_day = some t ∧
      31 * 86400 < compute_next day31Descriptor (31 * 86400) ∧
      dayOfMonthOf (compute_next day31Descriptor (31 * 86400)) =
        min 31 (monthLength (monthIndexOf (compute_next day31Descriptor (31 * 86400)))) ∧
      clockOf (compute_next day31Descriptor (31 * 86400)) = (t.hour.val, t.minute.val, 0) :=
  have h := (C6_monthly_next_run 86400 day31Descriptor ⟨31, by decide, by decide⟩ (31 * 86400)
      ⟨day31Config, [], rfl⟩ rfl).1
  h.imp fun _ hh => ⟨hh.1, hh.2.1, hh.2.2.1, hh.2.2.2.1⟩

end Sched

/-! ## Part II.  Properties of the string helpers -/

namespace Utils

/-- One step of the loop of `ISO8859ToUTF8`, as the list of bytes appended. -/
theorem ISO8859ToUTF8_foldl (data acc : List Nat) :
    data.foldl (fun strOut c =>
      if c % 256 < 0x80 then strOut ++ [c % 256]
      else (strOut ++ [(0xc0 ||| ((c % 256) >>> 6)) % 256]) ++
        [(0x80 ||| ((c % 256) &&& 0x3f)) % 256]) acc =
    acc ++ data.flatMap (fun c =>
      if c % 256 < 0x80 then [c % 256]
      else [(0xc0 ||| ((c % 256) >>> 6)) % 256, (0x80 ||| ((c % 256) &&& 0x3f)) % 256]) := by
  induction data generalizing acc with
  | nil => simp
  | cons c cs ih =>
    rw [List.foldl_cons, ih, List.flatMap_cons]
    split <;> simp

set_option maxRecDepth 100000 in
/-- On a byte the loop step appends exactly the encoding of the claim; the two
bytes of a sequence are a lead byte `110xxxxx` and a continuation byte, and
decode back to the byte. -/
theorem byte_facts : ∀ b : Fin 256,
    (if b.val % 256 < 0x80 then [b.val % 256]
      else [(0xc0 ||| ((b.val % 256) >>> 6)) % 256, (0x80 ||| ((b.val % 256) &&& 0x3f)) % 256]) =
      encodeLatin1Byte b.val ∧
    (0x80 ≤ b.val →
      0xC0 ≤ (0xC0 ||| (b.val >>> 6)) ∧ (0xC0 ||| (b.val >>> 6)) < 0xE0 ∧
      isContinuation (0x80 ||| (b.val &&& 0x3F)) = true ∧
      (((0xC0 ||| (b.val >>> 6)) &&& 0x1F) <<< 6) ||| ((0x80 ||| (b.val &&& 0x3F)) &&& 0x3F) =
        b.val) := by
  decide

/-- On byte strings `ISO8859ToUTF8` is the concatenation of the per-byte
encodings. -/
theorem ISO8859ToUTF8_eq_flatMap (data : List Nat) (hbytes : ∀ b ∈ data, b < 256) :
    ISO8859ToUTF8 data = data.flatMap encodeLatin1Byte := by
  simp only [ISO8859ToUTF8]
  rw [ISO8859ToUTF8_foldl, List.nil_append]
  induction data with
  | nil => rfl
  | cons c cs ih =>
    rw [List.flatMap_cons, List.flatMap_cons, ih (fun b hb => hbytes b (List.mem_cons_of_mem _ hb))]
    have hc : c < 256 := hbytes c (List.mem_cons_self _ _)
    rw [(byte_facts ⟨c, hc⟩).1]

/-- Decoding the concatenated encodings gives the bytes back, with any fuel of
at least the number of bytes. -/
theorem utf8DecodeAux_encode (data : List Nat) (hbytes : ∀ b ∈ data, b < 256) (fuel : Nat)
    (hf : data.length ≤ fuel) :
    utf8DecodeAux fuel (data.flatMap encodeLatin1Byte) = some data := by
  induction data generalizing fuel with
  | nil => cases fuel <;> rfl
  | cons c cs ih =>
    have hc : c < 256 := hbytes c (List.mem_cons_self _ _)
    have hcs : ∀ b ∈ cs, b < 256 := fun b hb => hbytes b (List.mem_cons_of_mem _ hb)
    obtain ⟨f, rfl⟩ : ∃ f, fuel = f + 1 := ⟨fuel - 1, by simp at hf; omega⟩
    have hlen : cs.length ≤ f := by simp at hf; omega
    rw [List.flatMap_cons]
    by_cases h80 : c < 0x80
    · simp only [encodeLatin1Byte, h80, if_true, List.singleton_append, utf8DecodeAux]
      rw [ih hcs f hlen]
      rfl
    · obtain ⟨h1, h2, h3, h4⟩ := (byte_facts ⟨c, hc⟩).2 (by simpa using h80)
      simp only at h1 h2 h3 h4
      have n1 : ¬ (0xC0 ||| (c >>> 6)) < 0x80 := by omega
      have n2 : ¬ (0xC0 ||| (c >>> 6)) < 0xC0 := by omega
      have h5 : 0x80 ≤ c := by omega
      simp only [encodeLatin1Byte, h80, if_false, List.cons_append, List.nil_append,
        utf8DecodeAux, n1, n2, h2, if_true, h3, h4, h5, and_self]
      rw [ih hcs f hlen]
      rfl

/-- C8: for every byte string, `ISO8859ToUTF8` replaces it by the concatenation,
in order, of the encodings of its bytes: a byte below 0x80 unchanged, any other
byte `b` as `0xC0 | (b >> 6)` followed by `0x80 | (b & 0x3F)`.  Hence the result
is again a byte string, a pure-ASCII string is unchanged, the length grows by
the number of bytes at or above 0x80, and decoding the result as UTF-8 gives
code points equal to the input bytes.  The byte 0xF6 becomes 0xC3 0xB6. -/
theorem C8_ISO8859ToUTF8 (data : List Nat) (hbytes : ∀ b ∈ data, b < 256) :
    ISO8859ToUTF8 data = data.flatMap encodeLatin1Byte ∧
    (∀ b, b < 0x80 → encodeLatin1Byte b = [b]) ∧
    (∀ b, 0x80 ≤ b → encodeLatin1Byte b = [0xC0 ||| (b >>> 6), 0x80 ||| (b &&& 0x3F)]) ∧
    (∀ b ∈ ISO8859ToUTF8 data, b < 256) ∧
    ((∀ b ∈ data, b < 0x80) → ISO8859ToUTF8 data = data) ∧
    (ISO8859ToUTF8 data).length = data.length + data.countP (fun b => decide (0x80 ≤ b)) ∧
    utf8Decode (ISO8859ToUTF8 data) = some data ∧
    ISO8859ToUTF8 [0xF6] = [0xC3, 0xB6] := by
  have e := ISO8859ToUTF8_eq_flatMap data hbytes
  refine ⟨e, ?_, ?_, ?_, ?_, ?_, ?_, by decide⟩
  · intro b hb
    simp [encodeLatin1Byte, hb]
  · intro b hb
    have : ¬ b < 0x80 := by omega
    simp [encodeLatin1Byte, this]
  · rw [e]
    intro b hb
    obtain ⟨c, hc, hbc⟩ := List.mem_flatMap.1 hb
    have hc256 := hbytes c hc
    by_cases h80 : c < 0x80
    · simp only [encodeLatin1Byte, h80, if_true, List.mem_singleton] at hbc
      omega
    · obtain ⟨h1, h2, h3, h4⟩ := (byte_facts ⟨c, hc256⟩).2 (by simpa using h80)
      simp only [isContinuation, Bool.and_eq_true, decide_eq_true_eq] at h1 h2 h3
      simp only [encodeLatin1Byte, h80, if_false, List.mem_cons, List.mem_singleton,
        List.not_mem_nil, or_false] at hbc
      rcases hbc with rfl | rfl <;> omega
  · intro hascii
    rw [e]
    clear e hbytes
    induction data with
    | nil => rfl
    | cons c cs ih =>
      have hc := hascii c (List.mem_cons_self _ _)
      rw [List.flatMap_cons, ih (fun b hb => hascii b (List.mem_cons_of_mem _ hb))]
      simp [encodeLatin1Byte, hc]
  · rw [e]
    clear e hbytes
    induction data with
    | nil => rfl
    | cons c cs ih =>
      rw [List.flatMap_cons, List.length_append, ih, List.countP_cons]
      by_cases h80 : c < 0x80
      · have : ¬ 0x80 ≤ c := by omega
        simp [encodeLatin1Byte, h80, this]
        omega
      · have : 0x80 ≤ c := by omega
        simp [encodeLatin1Byte, h80, this]
        omega
  · rw [e]
    exact utf8DecodeAux_encode data hbytes _ (by
      clear e hbytes
      induction data with
      | nil => simp
      | cons c cs ih =>
        rw [List.flatMap_cons, List.length_append, List.length_cons]
        have : 1 ≤ (encodeLatin1Byte c).length := by
          unfold encodeLatin1Byte
          split <;> simp
        omega)

/-- C8, instance: the bytes of `Jör` in ISO-8859-1. -/
theorem C8_ISO8859ToUTF8_witness :
    ISO8859ToUTF8 [0x4a, 0xF6, 0x72] = [0x4a, 0xC3, 0xB6, 0x72] ∧
    utf8Decode (ISO8859ToUTF8 [0x4a, 0xF6, 0x72]) = some [0x4a, 0xF6, 0x72] :=
  have h := C8_ISO8859ToUTF8 [0x4a, 0xF6, 0x72] (by decide)
  ⟨h.1.trans (by decide), h.2.2.2.2.2.2.1⟩

/-- The stream extraction of `getline` in terms of the tokens of the input:
either a delimiter is met, and the token is the first one of the input, or the
end of input is met, and the token is the whole input. -/
theorem getlineChars_spec {α : Type} [DecidableEq α] (d : α) (r : List α) :
    (∀ tok r', getlineChars d r = (tok, some r') →
      tokensOf d r = tok :: tokensOf d r' ∧ r'.length < r.length) ∧
    (∀ tok, getlineChars d r = (tok, none) →
      tok = r ∧ (r ≠ [] → tokensOf d r = [r])) := by
  induction r with
  | nil =>
    refine ⟨?_, ?_⟩
    · intro tok r' h
      simp [getlineChars] at h
    · intro tok h
      simp only [getlineChars, Prod.mk.injEq, and_true] at h
      exact ⟨h.symm, fun hne => absurd rfl hne⟩
  | cons c cs ih =>
    obtain ⟨ih1, ih2⟩ := ih
    by_cases hc : c = d
    · refine ⟨?_, ?_⟩
      · intro tok r' h
        simp only [getlineChars, hc, if_true, Prod.mk.injEq, Option.some.injEq] at h
        obtain ⟨rfl, rfl⟩ := h
        simp [tokensOf, hc]
      · intro tok h
        simp [getlineChars, hc] at h
    · refine ⟨?_, ?_⟩
      · intro tok r' h
        simp only [getlineChars, hc, if_false, Prod.mk.injEq] at h
        obtain ⟨rfl, h2⟩ := h
        obtain ⟨e, hl⟩ := ih1 (getlineChars d cs).1 r' (Prod.ext rfl h2)
        refine ⟨?_, by simp only [List.length_cons]; omega⟩
        simp only [tokensOf, hc, if_false, e]
      · intro tok h
        simp only [getlineChars, hc, if_false, Prod.mk.injEq] at h
        obtain ⟨rfl, h2⟩ := h
        obtain ⟨e, ht⟩ := ih2 (getlineChars d cs).1 (Prod.ext rfl h2)
        refine ⟨by rw [e], fun _ => ?_⟩
        simp only [tokensOf, hc, if_false]
        rcases cs with _ | ⟨c2, cs2⟩
        · rfl
        · rw [ht (List.cons_ne_nil _ _)]

/-- The loop of `split` on a good stream ends, within a fuel of the number of
unread characters plus two, with the tokens of the unread input appended. -/
theorem splitLoop_good {α : Type} [DecidableEq α] (d : α) (fuel : Nat) (r : List α)
    (acc : List (List α)) (hf : r.length + 2 ≤ fuel) :
    splitLoop d fuel { rest := r, eofbit := false, failbit := false } acc =
      some (acc ++ tokensOf d r) := by
  induction fuel generalizing r acc with
  | zero => omega
  | succ n ih =>
    obtain ⟨h1, h2⟩ := getlineChars_spec d r
    rcases hg : getlineChars d r with ⟨tok, _ | r'⟩
    · obtain ⟨rfl, ht⟩ := h2 tok hg
      rcases tok with _ | ⟨c, cs⟩
      · simp [splitLoop, getline, hg, tokensOf]
      · obtain ⟨m, rfl⟩ : ∃ m, n = m + 1 := ⟨n - 1, by simp at hf; omega⟩
        simp [splitLoop, getline, hg, ht (List.cons_ne_nil _ _)]
    · obtain ⟨e, hl⟩ := h1 tok r' hg
      have := ih r' (acc ++ [tok]) (by omega)
      simp only [splitLoop, getline, hg, Bool.false_eq_true, or_self, if_false]
      rw [this, e]
      simp

/-- `Utils::split` returns, and returns the tokens of its argument. -/
theorem split_eq_tokensOf {α : Type} [DecidableEq α] (str : List α) (d : α) :
    split str d = some (tokensOf d str) := by
  unfold split
  rw [splitLoop_good d _ str [] (Nat.le_refl _), List.nil_append]

/-- No token contains the delimiter. -/
theorem tokensOf_no_delimiter {α : Type} [DecidableEq α] (d : α) (str : List α) :
    ∀ t ∈ tokensOf d str, d ∉ t := by
  induction str with
  | nil => simp [tokensOf]
  | cons c cs ih =>
    by_cases hc : c = d
    · simp only [tokensOf, hc, if_true, List.mem_cons]
      rintro t (rfl | ht)
      · simp
      · exact ih t ht
    · simp only [tokensOf, hc, if_false]
      rcases hts : tokensOf d cs with _ | ⟨t0, ts⟩
      · simp only [List.mem_singleton]
        rintro t rfl
        simp [Ne.symm hc]
      · rw [hts] at ih
        simp only [List.mem_cons]
        rintro t (rfl | ht)
        · have := ih t0 (List.mem_cons_self _ _)
          simp [Ne.symm hc, this]
        · exact ih t (List.mem_cons_of_mem _ ht)

/-- The tokens of a non-empty input are not none. -/
theorem tokensOf_ne_nil {α : Type} [DecidableEq α] (d : α) (c : α) (cs : List α) :
    tokensOf d (c :: cs) ≠ [] := by
  simp only [tokensOf]
  split
  · simp
  · split <;> simp

/-- Joining the tokens with the delimiter gives the input back, up to a final
delimiter. -/
theorem tokensOf_intercalate {α : Type} [DecidableEq α] (d : α) (str : List α) :
    List.intercalate [d] (tokensOf d str) =
      if str.getLast? = some d then str.dropLast else str := by
  induction str with
  | nil => simp [tokensOf, List.intercalate]
  | cons c cs ih =>
    rcases cs with _ | ⟨c2, cs2⟩
    · by_cases hc : c = d
      · simp [tokensOf, hc, List.intercalate]
      · simp [tokensOf, hc, List.intercalate]
    · have hlast : (c :: c2 :: cs2).getLast? = (c2 :: cs2).getLast? := by
        simp [List.getLast?_cons_cons]
      have hdrop : (c :: c2 :: cs2).dropLast = c :: (c2 :: cs2).dropLast := by
        simp [List.dropLast]
      rw [hlast, hdrop]
      have hne := tokensOf_ne_nil d c2 cs2
      rcases hts : tokensOf d (c2 :: cs2) with _ | ⟨t0, ts⟩
      · exact absurd hts hne
      · rw [hts] at ih
        by_cases hc : c = d
        · have e : tokensOf d (c :: c2 :: cs2) = [] :: t0 :: ts := by
            rw [← hts]
            simp [tokensOf, hc]
          rw [e]
          have e2 : List.intercalate [d] ([] :: t0 :: ts) = d :: List.intercalate [d] (t0 :: ts) := by
            simp [List.intercalate, List.intersperse]
          rw [e2, ih, hc]
          split <;> rfl
        · have e : tokensOf d (c :: c2 :: cs2) = (c :: t0) :: ts := by
            have : tokensOf d (c :: c2 :: cs2) =
                match tokensOf d (c2 :: cs2) with
                | [] => [[c]]
                | t :: ts => (c :: t) :: ts := by
              simp [tokensOf, hc]
            rw [this, hts]
          rw [e]
          have e2 : List.intercalate [d] ((c :: t0) :: ts) = c :: List.intercalate [d] (t0 :: ts) := by
            rcases ts with _ | ⟨t1, ts1⟩ <;> simp [List.intercalate, List.intersperse]
          rw [e2, ih]
          split <;> rfl

/-- A non-empty input without delimiter is its own single token. -/
theorem tokensOf_no_delimiter_input {α : Type} [DecidableEq α] (d : α) (str : List α)
    (hne : str ≠ []) (hd : d ∉ str) : tokensOf d str = [str] := by
  induction str with
  | nil => exact absurd rfl hne
  | cons c cs ih =>
    have hc : ¬ c = d := fun h => hd (by simp [h])
    have hd2 : d ∉ cs := fun h => hd (List.mem_cons_of_mem _ h)
    simp only [tokensOf, hc, if_false]
    rcases cs with _ | ⟨c2, cs2⟩
    · rfl
    · rw [ih (List.cons_ne_nil _ _) hd2]

/-- C9: for every string and delimiter, `split` returns a list of tokens none of
which contains the delimiter; joining the tokens with the delimiter gives the
string back when it is empty or does not end with the delimiter, and the string
without its final character when it ends with the delimiter.  The split of the
empty string is the empty list, and the split of a non-empty string without the
delimiter is the one-element list holding the string. -/
theorem C9_split {α : Type} [DecidableEq α] (str : List α) (d : α) :
    ∃ tokens, split str d = some tokens ∧
      (∀ t ∈ tokens, d ∉ t) ∧
      (str = [] ∨ str.getLast? ≠ some d → List.intercalate [d] tokens = str) ∧
      (str.getLast? = some d → List.intercalate [d] tokens = str.dropLast) ∧
      (str = [] → tokens = []) ∧
      (str ≠ [] → d ∉ str → tokens = [str]) := by
  refine ⟨tokensOf d str, split_eq_tokensOf str d, tokensOf_no_delimiter d str, ?_, ?_, ?_,
    tokensOf_no_delimiter_input d str⟩
  · intro h
    rw [tokensOf_intercalate]
    rcases h with rfl | h
    · simp
    · rw [if_neg h]
  · intro h
    rw [tokensOf_intercalate, if_pos h]
  · rintro rfl
    rfl

/-- A position found by the search lies in the searched range. -/
theorem findFirstOfFrom_range {α : Type} [DecidableEq α] (chars l : List α) (i j : Nat)
    (h : findFirstOfFrom chars l i = some j) : i ≤ j ∧ j < i + l.length := by
  induction l generalizing i with
  | nil => simp [findFirstOfFrom] at h
  | cons c cs ih =>
    simp only [findFirstOfFrom] at h
    split at h
    · simp only [Option.some.injEq] at h
      simp only [List.length_cons]
      omega
    · have := ih (i + 1) h
      simp only [List.length_cons]
      omega

/-- A position returned by `find_first_of` is at or after the start position and
inside the string. -/
theorem find_first_of_range {α : Type} [DecidableEq α] (str chars : List α) (pos j : Nat)
    (h : find_first_of str chars pos = some j) : pos ≤ j ∧ j < str.length := by
  have := findFirstOfFrom_range chars (str.drop pos) pos j h
  rw [List.length_drop] at this
  omega

/-- Cutting a string at a position holding character `d`. -/
theorem take_cons_drop {α : Type} (str : List α) (d : α) (found : Nat)
    (h : str[found]? = some d) : str.take found ++ d :: str.drop (found + 1) = str := by
  induction str generalizing found with
  | nil => simp at h
  | cons c cs ih =>
    cases found with
    | zero =>
      simp only [List.getElem?_cons_zero, Option.some.injEq] at h
      simp [h]
    | succ n =>
      simp only [List.getElem?_cons_succ] at h
      simp [ih n h]

/-- The loop of `splitKeyValueNonEscapedDelimiter` ends within a fuel of the
number of characters from the found position on, and its result is the
unsplit string or a cut of the string at a delimiter. -/
theorem splitKeyValueLoop_spec {α : Type} [DecidableEq α] (str : List α) (d : α)
    (findText : List α) (fuel : Nat) (o : Option Nat)
    (ho : ∀ f, o = some f → f < str.length ∧ str.length ≤ fuel + f) :
    ∃ r, splitKeyValueLoop str d findText fuel o = some r ∧
      (r = (str, []) ∨ r.1 ++ d :: r.2 = str) := by
  induction fuel generalizing o with
  | zero =>
    rcases o with _ | f
    · exact ⟨_, rfl, Or.inl rfl⟩
    · have := ho f rfl
      omega
  | succ n ih =>
    rcases o with _ | f
    · exact ⟨_, rfl, Or.inl rfl⟩
    · by_cases hd : str[f]? = some d
      · refine ⟨(str.take f, str.drop (f + 1)), ?_, Or.inr (take_cons_drop str d f hd)⟩
        simp [splitKeyValueLoop, hd]
      · have hstep : splitKeyValueLoop str d findText (n + 1) (some f) =
            splitKeyValueLoop str d findText n (find_first_of str findText (f + 2)) := by
          simp [splitKeyValueLoop, hd]
        rw [hstep]
        apply ih
        intro f2 hf2
        have h1 := find_first_of_range str findText (f + 2) f2 hf2
        have h2 := ho f rfl
        omega

/-- C10: for every string, delimiter and escape character,
`splitKeyValueNonEscapedDelimiter` returns, and returns either the pair of the
unchanged string and the empty string, or a pair `(key, value)` with
`key + delimiter + value` equal to the string (this holds whether or not the
delimiter differs from the escape character).  A split at the first character
is allowed: `::` gives an empty key and value `:`; `hello:` gives key `hello`
and an empty value. -/
theorem C10_splitKeyValue {α : Type} [DecidableEq α] (str : List α) (d e : α) :
    (∃ r, splitKeyValueNonEscapedDelimiter str d e = some r ∧
      (r = (str, []) ∨ r.1 ++ d :: r.2 = str)) ∧
    splitKeyValueNonEscapedDelimiter [':', ':'] ':' '\\' = some ([], [':']) ∧
    splitKeyValueNonEscapedDelimiter ['h', 'e', 'l', 'l', 'o', ':'] ':' '\\' =
      some (['h', 'e', 'l', 'l', 'o'], []) := by
  refine ⟨?_, by decide, by decide⟩
  unfold splitKeyValueNonEscapedDelimiter
  apply splitKeyValueLoop_spec
  intro f hf
  have := find_first_of_range str [e, d] 0 f hf
  omega

/-- The unit tests of `split` and of `splitKeyValueNonEscapedDelimiter`. -/
theorem stringHelper_tests :
    split "".toList '.' = some [] ∧
    split "hello_world".toList '.' = some ["hello_world".toList] ∧
    split "hello.world".toList '.' = some ["hello".toList, "world".toList] ∧
    splitKeyValueNonEscapedDelimiter "hello:world".toList ':' '\\' =
      some ("hello".toList, "world".toList) ∧
    splitKeyValueNonEscapedDelimiter "hello:world:".toList ':' '\\' =
      some ("hello".toList, "world:".toList) ∧
    splitKeyValueNonEscapedDelimiter "hello::".toList ':' '\\' =
      some ("hello".toList, ":".toList) ∧
    splitKeyValueNonEscapedDelimiter "he\\:llo:world".toList ':' '\\' =
      some ("he\\:llo".toList, "world".toList) := by
  decide

/-- A successful scan returns the length of the shortest prefix before an
occurrence of the pattern. -/
theorem findFrom_some {α : Type} [DecidableEq α] (pat l : List α) (i j : Nat)
    (h : findFrom pat l i = some j) :
    ∃ p t, l = p ++ pat ++ t ∧ j = i + p.length ∧
      ∀ p' t', l = p' ++ pat ++ t' → p.length ≤ p'.length := by
  induction l generalizing i with
  | nil =>
    simp only [findFrom] at h
    split at h
    · next hp =>
      have hnil : pat = [] := List.prefix_nil.1 (List.isPrefixOf_iff_prefix.1 hp)
      simp only [Option.some.injEq] at h
      exact ⟨[], [], by simp [hnil], by simp [h], fun _ _ _ => Nat.zero_le _⟩
    · simp at h
  | cons c cs ih =>
    simp only [findFrom] at h
    split at h
    · next hp =>
      obtain ⟨t, ht⟩ := List.isPrefixOf_iff_prefix.1 hp
      simp only [Option.some.injEq] at h
      exact ⟨[], t, by simp [ht], by simp [h], fun _ _ _ => Nat.zero_le _⟩
    · next hp =>
      obtain ⟨p, t, e, hj, hmin⟩ := ih (i + 1) h
      refine ⟨c :: p, t, by simp [e], by simp only [List.length_cons]; omega, ?_⟩
      intro p' t' e'
      rcases p' with _ | ⟨c', p''⟩
      · exfalso
        apply hp
        exact List.isPrefixOf_iff_prefix.2 ⟨t', by simpa using e'.symm⟩
      · simp only [List.cons_append, List.cons.injEq] at e'
        have := hmin p'' t' (by simpa using e'.2)
        simp only [List.length_cons]
        omega

/-- A failed scan means that the pattern does not occur. -/
theorem findFrom_none {α : Type} [DecidableEq α] (pat l : List α) (i : Nat)
    (h : findFrom pat l i = none) : ¬ pat <:+: l := by
  induction l generalizing i with
  | nil =>
    simp only [findFrom] at h
    split at h
    · simp at h
    · next hp =>
      intro hin
      apply hp
      rw [List.infix_nil.1 hin]
      exact List.isPrefixOf_iff_prefix.2 (List.prefix_refl _)
  | cons c cs ih =>
    simp only [findFrom] at h
    split at h
    · simp at h
    · next hp =>
      intro hin
      rcases List.infix_cons_iff.1 hin with h1 | h2
      · exact hp (List.isPrefixOf_iff_prefix.2 h1)
      · exact ih (i + 1) h h2

/-- `find` from position 0 is the scan of the whole string. -/
theorem find_zero {α : Type} [DecidableEq α] (data pat : List α) :
    find data pat 0 = findFrom pat data 0 := by
  simp [find]

/-- `find` from position 0 succeeds exactly when the pattern occurs. -/
theorem find_zero_isSome {α : Type} [DecidableEq α] (data pat : List α) :
    (find data pat 0).isSome = true ↔ pat <:+: data := by
  rw [find_zero]
  rcases h : findFrom pat data 0 with _ | j
  · simp only [Option.isSome_none, Bool.false_eq_true, false_iff]
    exact findFrom_none pat data 0 h
  · obtain ⟨p, t, e, -, -⟩ := findFrom_some pat data 0 j h
    simp only [Option.isSome_some, true_iff]
    exact ⟨p, t, e.symm⟩

/-- C11: whenever `replaceAll` returns (within any bound on its loop), the flag
it returns is true exactly when `toSearch` occurs as a substring of the original
`data`, and when the flag is false `data` is unchanged.  This holds for an empty
`toSearch` as well. -/
theorem C11_replaceAll {α : Type} [DecidableEq α] (fuel : Nat) (data toSearch toReplace : List α)
    (ret : Bool) (data' : List α)
    (h : replaceAll fuel data toSearch toReplace = some (ret, data')) :
    (ret = true ↔ toSearch <:+: data) ∧ (ret = false → data' = data) := by
  unfold replaceAll at h
  have hs := find_zero_isSome data toSearch
  rcases hf : find data toSearch 0 with _ | pos
  · rw [hf] at h hs
    cases fuel <;>
      simp only [replaceAllLoop, Option.map_some', Option.some.injEq, Prod.mk.injEq,
        Option.isSome_none] at h
    all_goals
      obtain ⟨rfl, rfl⟩ := h
      exact ⟨by simpa using hs, fun _ => rfl⟩
  · rw [hf] at h hs
    rcases hl : replaceAllLoop toSearch toReplace fuel data (some pos) with _ | d
    · rw [hl] at h
      simp at h
    · rw [hl] at h
      simp only [Option.map_some', Option.some.injEq, Prod.mk.injEq, Option.isSome_some] at h
      obtain ⟨rfl, rfl⟩ := h
      exact ⟨by simpa using hs, fun hfalse => by simp at hfalse⟩

/-- C11, instance: the two unit tests of `replaceAll`. -/
theorem C11_replaceAll_witness :
    ((true = true ↔ "hello_".toList <:+: "hello_world".toList) ∧
      (true = false → "bye_world".toList = "hello_world".toList)) ∧
    ((false = true ↔ "nothing_".toList <:+: "hello_world".toList) ∧
      (false = false → "hello_world".toList = "hello_world".toList)) :=
  ⟨C11_replaceAll 5 "hello_world".toList "hello_".toList "bye_".toList true
      "bye_world".toList (by decide),
   C11_replaceAll 5 "hello_world".toList "nothing_".toList "bye_".toList false
      "hello_world".toList (by decide)⟩

/-- C12: `replaceFirst` returns true exactly when `toSearch` occurs in `data`.
When it occurs, `data` is `p + toSearch + s` with `p` the shortest prefix before
an occurrence, and the new `data` is `p + toReplace + s`; when it does not
occur, `data` is unchanged.  `bye_bye` with `bye` replaced by `hello` gives
`hello_bye`. -/
theorem C12_replaceFirst {α : Type} [DecidableEq α] (data toSearch toReplace : List α) :
    ((replaceFirst data toSearch toReplace).1 = true ↔ toSearch <:+: data) ∧
    (toSearch <:+: data → ∃ p s, data = p ++ toSearch ++ s ∧
      (∀ p' s', data = p' ++ toSearch ++ s' → p.length ≤ p'.length) ∧
      (replaceFirst data toSearch toReplace).2 = p ++ toReplace ++ s) ∧
    (¬ toSearch <:+: data → (replaceFirst data toSearch toReplace).2 = data) ∧
    replaceFirst "bye_bye".toList "bye".toList "hello".toList = (true, "hello_bye".toList) ∧
    replaceFirst "hello_world".toList "nothing_".toList "bye_".toList =
      (false, "hello_world".toList) := by
  have hs := find_zero_isSome data toSearch
  refine ⟨?_, ?_, ?_, by decide, by decide⟩
  · unfold replaceFirst
    rcases hf : find data toSearch 0 with _ | pos
    · rw [hf] at hs
      simpa using hs
    · rw [hf] at hs
      simpa using hs
  · intro hin
    unfold replaceFirst
    rcases hf : find data toSearch 0 with _ | pos
    · rw [hf] at hs
      exact absurd (hs.2 hin) (by simp)
    · rw [find_zero] at hf
      obtain ⟨p, s, e, hpos, hmin⟩ := findFrom_some toSearch data 0 pos hf
      refine ⟨p, s, e, hmin, ?_⟩
      have hp : pos = p.length := by omega
      simp only [replace, hp]
      rw [e]
      simp [List.take_append_eq_append_take, List.drop_append_eq_append_drop]
  · intro hnot
    unfold replaceFirst
    rcases hf : find data toSearch 0 with _ | pos
    · rfl
    · rw [hf] at hs
      exact absurd (hs.1 (by simp)) hnot

/-- C13: `splitIndex` returns; it throws exactly when the index is at least the
number of tokens of `split`, and otherwise returns the token at that index.  On
the empty string it throws for every index. -/
theorem C13_splitIndex {α : Type} [DecidableEq α] (str : List α) (d : α) (index : Nat) :
    ∃ tokens, split str d = some tokens ∧
      ((∃ msg, splitIndex str d index = some (.error msg)) ↔ tokens.length ≤ index) ∧
      (∀ h : index < tokens.length,
        splitIndex str d index = some (.ok (tokens.get ⟨index, h⟩))) ∧
      (str = [] → splitIndex str d index = some (.error "Invalid index to get values.")) := by
  refine ⟨tokensOf d str, split_eq_tokensOf str d, ?_, ?_, ?_⟩
  · unfold splitIndex
    rw [split_eq_tokensOf]
    by_cases h : index < (tokensOf d str).length
    · simp only [Option.map_some', h, dite_true, Option.some.injEq, reduceCtorEq, exists_false,
        false_iff]
      omega
    · simp only [Option.map_some', h, dite_false, Option.some.injEq, Except.error.injEq,
        exists_eq', true_iff]
      omega
  · intro h
    unfold splitIndex
    rw [split_eq_tokensOf]
    simp [h]
  · rintro rfl
    rfl

/-- The characters before the first NUL of a NUL-free string followed by NUL. -/
theorem takeWhile_nul (s rest : List Nat) (h : 0 ∉ s) :
    (s ++ 0 :: rest).takeWhile (· ≠ 0) = s := by
  induction s with
  | nil => simp [List.takeWhile]
  | cons c cs ih =>
    have hc : c ≠ 0 := fun e => h (by simp [e])
    have hcs : 0 ∉ cs := fun e => h (List.mem_cons_of_mem _ e)
    have hd : decide (c ≠ 0) = true := decide_eq_true hc
    simp only [List.cons_append, List.takeWhile_cons, hd, if_true, ih hcs]

/-- On a buffer holding NUL-terminated, non-empty strings and a final NUL the
loop ends at that NUL, whatever follows it, with the strings appended. -/
theorem splitNullTerminatedLoop_spec (strs : List (List Nat))
    (h : ∀ s ∈ strs, s ≠ [] ∧ 0 ∉ s) (trailing : List Nat) (fuel : Nat)
    (acc : List (List Nat)) (hf : strs.length + 1 ≤ fuel) :
    splitNullTerminatedLoop fuel (strs.flatMap (· ++ [0]) ++ 0 :: trailing) acc =
      some (acc ++ strs) := by
  induction strs generalizing fuel acc with
  | nil =>
    obtain ⟨f, rfl⟩ : ∃ f, fuel = f + 1 := ⟨fuel - 1, by simp at hf; omega⟩
    simp [splitNullTerminatedLoop]
  | cons s rest ih =>
    obtain ⟨f, rfl⟩ : ∃ f, fuel = f + 1 := ⟨fuel - 1, by simp at hf; omega⟩
    obtain ⟨hne, h0⟩ := h s (List.mem_cons_self _ _)
    have hrest : ∀ s' ∈ rest, s' ≠ [] ∧ 0 ∉ s' := fun s' hs' => h s' (List.mem_cons_of_mem _ hs')
    have e : (s :: rest).flatMap (· ++ [0]) ++ 0 :: trailing =
        s ++ 0 :: (rest.flatMap (· ++ [0]) ++ 0 :: trailing) := by
      simp [List.flatMap_cons]
    rw [e]
    have htw := takeWhile_nul s (rest.flatMap (· ++ [0]) ++ 0 :: trailing) h0
    rcases s with _ | ⟨c, cs⟩
    · exact absurd rfl hne
    · have hc : c ≠ 0 := fun e => h0 (by simp [e])
      have hdrop : List.drop ((c :: cs).length + 1)
          ((c :: cs) ++ 0 :: (rest.flatMap (· ++ [0]) ++ 0 :: trailing)) =
          rest.flatMap (· ++ [0]) ++ 0 :: trailing := by
        rw [show (c :: cs).length + 1 = ((c :: cs) ++ [0]).length by simp]
        rw [show (c :: cs) ++ 0 :: (rest.flatMap (· ++ [0]) ++ 0 :: trailing) =
          ((c :: cs) ++ [0]) ++ (rest.flatMap (· ++ [0]) ++ 0 :: trailing) by simp]
        exact List.drop_left _ _
      have hmem : (0 : Nat) ∈ (c :: cs) ++ 0 :: (rest.flatMap (· ++ [0]) ++ 0 :: trailing) := by
        simp
      have step : splitNullTerminatedLoop (f + 1)
          ((c :: cs) ++ 0 :: (rest.flatMap (· ++ [0]) ++ 0 :: trailing)) acc =
          splitNullTerminatedLoop f (rest.flatMap (· ++ [0]) ++ 0 :: trailing)
            (acc ++ [c :: cs]) := by
        rw [show (c :: cs) ++ 0 :: (rest.flatMap (· ++ [0]) ++ 0 :: trailing) =
          c :: (cs ++ 0 :: (rest.flatMap (· ++ [0]) ++ 0 :: trailing)) by rfl] at htw hdrop hmem ⊢
        simp only [splitNullTerminatedLoop, hc, if_false, hmem, if_true, htw, hdrop,
          List.isEmpty_cons, Bool.false_eq_true]
      rw [step, ih hrest f (acc ++ [c :: cs]) (by simp at hf; omega)]
      simp

/-- The encoded buffer is at least as long as the number of strings. -/
theorem length_flatMap_nul (strs : List (List Nat)) :
    strs.length ≤ (strs.flatMap (· ++ [0])).length := by
  induction strs with
  | nil => simp
  | cons s rest ih =>
    simp only [List.flatMap_cons, List.length_append, List.length_cons, List.length_nil]
    omega

/-- C14: for every list of non-empty, NUL-free strings, the function applied to
the buffer made of the strings, each followed by NUL, and one more NUL returns
exactly the strings in order.  It does so on a memory block that ends at the
final NUL, and returns the same whatever bytes follow that NUL, so no byte past
it is read.  A buffer that starts with NUL gives the empty list. -/
theorem C14_splitNullTerminatedStrings (strs : List (List Nat))
    (h : ∀ s ∈ strs, s ≠ [] ∧ 0 ∉ s) :
    splitNullTerminatedStrings (strs.flatMap (· ++ [0]) ++ [0]) = some strs ∧
    (∀ trailing,
      splitNullTerminatedStrings (strs.flatMap (· ++ [0]) ++ 0 :: trailing) = some strs) ∧
    (∀ rest, splitNullTerminatedStrings (0 :: rest) = some []) := by
  have key : ∀ trailing,
      splitNullTerminatedStrings (strs.flatMap (· ++ [0]) ++ 0 :: trailing) = some strs := by
    intro trailing
    unfold splitNullTerminatedStrings
    rw [splitNullTerminatedLoop_spec strs h trailing _ [] (by
      have := length_flatMap_nul strs
      simp only [List.length_append, List.length_cons]
      omega)]
    rfl
  refine ⟨key [], key, ?_⟩
  intro rest
  simp [splitNullTerminatedStrings, splitNullTerminatedLoop]

/-- C14, instance: the buffer `hello NUL world NUL NUL` of the unit test. -/
theorem C14_splitNullTerminatedStrings_witness :
    splitNullTerminatedStrings
      ([[104, 101, 108, 108, 111], [119, 111, 114, 108, 100]].flatMap (· ++ [0]) ++ [0]) =
      some [[104, 101, 108, 108, 111], [119, 111, 114, 108, 100]] :=
  (C14_splitNullTerminatedStrings [[104, 101, 108, 108, 111], [119, 111, 114, 108, 100]]
    (by decide)).1

set_option maxRecDepth 100000 in
/-- The stream writes every byte as its two lowercase hexadecimal digits, the
first being `0` for a byte below 0x10. -/
theorem hex_byte_facts : ∀ b : Fin 256,
    setwFill 2 '0' (Nat.toDigits 16 (b.val % 256)) = hexPair b.val ∧
    (b.val < 0x10 → setwFill 2 '0' (Nat.toDigits 16 (b.val % 256)) =
      ['0', Nat.digitChar b.val]) := by
  decide

/-- Hexadecimal digits are characters of `0-9a-f` and determine their value. -/
theorem hex_digit_facts : ∀ x : Fin 16,
    Nat.digitChar x.val ∈ "0123456789abcdef".toList ∧
    ∀ y : Fin 16, Nat.digitChar x.val = Nat.digitChar y.val → x = y := by
  decide

/-- The loop of `asciiToHex` appends the digits of each value in turn. -/
theorem asciiToHex_foldl (v : List Nat) (acc : List Char) :
    v.foldl (fun ss val => ss ++ setwFill 2 '0' (Nat.toDigits 16 (val % 256))) acc =
      acc ++ v.flatMap (fun val => setwFill 2 '0' (Nat.toDigits 16 (val % 256))) := by
  induction v generalizing acc with
  | nil => simp
  | cons c cs ih => rw [List.foldl_cons, ih, List.flatMap_cons, List.append_assoc]

/-- On a byte vector `asciiToHex` is the concatenation of the digit pairs. -/
theorem asciiToHex_eq_flatMap (v : List Nat) (hbytes : ∀ b ∈ v, b < 256) :
    asciiToHex v = v.flatMap hexPair := by
  unfold asciiToHex
  rw [asciiToHex_foldl, List.nil_append]
  induction v with
  | nil => rfl
  | cons c cs ih =>
    rw [List.flatMap_cons, List.flatMap_cons, ih (fun b hb => hbytes b (List.mem_cons_of_mem _ hb))]
    have hc : c < 256 := hbytes c (List.mem_cons_self _ _)
    rw [(hex_byte_facts ⟨c, hc⟩).1]

/-- Digit pairs determine the byte. -/
theorem hexPair_injective (a b : Nat) (ha : a < 256) (hb : b < 256)
    (h : hexPair a = hexPair b) : a = b := by
  simp only [hexPair, List.cons.injEq, and_true] at h
  have h1 := (hex_digit_facts ⟨a / 16, by omega⟩).2 ⟨b / 16, by omega⟩ h.1
  have h2 := (hex_digit_facts ⟨a % 16, by omega⟩).2 ⟨b % 16, by omega⟩ h.2
  simp only [Fin.mk.injEq] at h1 h2
  omega

/-- Concatenated digit pairs determine the byte vector. -/
theorem flatMap_hexPair_injective (a b : List Nat) (ha : ∀ x ∈ a, x < 256)
    (hb : ∀ x ∈ b, x < 256) (h : a.flatMap hexPair = b.flatMap hexPair) : a = b := by
  induction a generalizing b with
  | nil =>
    rcases b with _ | ⟨y, ys⟩
    · rfl
    · simp [List.flatMap_cons, hexPair] at h
  | cons x xs ih =>
    rcases b with _ | ⟨y, ys⟩
    · simp [List.flatMap_cons, hexPair] at h
    · simp only [List.flatMap_cons, hexPair, List.cons_append, List.nil_append,
        List.cons.injEq] at h
      obtain ⟨h1, h2, h3⟩ := h
      have hxy : x = y := hexPair_injective x y (ha x (List.mem_cons_self _ _))
        (hb y (List.mem_cons_self _ _)) (by simp [hexPair, h1, h2])
      rw [hxy, ih ys (fun z hz => ha z (List.mem_cons_of_mem _ hz))
        (fun z hz => hb z (List.mem_cons_of_mem _ hz)) h3]

/-- Characters at positions `2i` and `2i+1` of concatenated digit pairs. -/
theorem flatMap_hexPair_get (v : List Nat) (i : Nat) (h : i < v.length) :
    (v.flatMap hexPair)[2 * i]? = some (Nat.digitChar (v.get ⟨i, h⟩ / 16)) ∧
    (v.flatMap hexPair)[2 * i + 1]? = some (Nat.digitChar (v.get ⟨i, h⟩ % 16)) := by
  induction v generalizing i with
  | nil => simp at h
  | cons c cs ih =>
    cases i with
    | zero => simp [List.flatMap_cons, hexPair]
    | succ n =>
      have hn : n < cs.length := by simpa using h
      obtain ⟨h1, h2⟩ := ih n hn
      have e1 : 2 * (n + 1) = 2 * n + 1 + 1 := by omega
      have e2 : 2 * (n + 1) + 1 = 2 * n + 1 + 1 + 1 := by omega
      simp only [List.flatMap_cons, hexPair, List.cons_append, List.nil_append, e1, e2,
        List.getElem?_cons_succ, List.get_cons_succ]
      exact ⟨h1, h2⟩

/-- C15: for every byte vector `v`, `asciiToHex v` has length `2 * |v|`, consists
only of the characters `0-9` and `a-f`, and its characters at positions `2i` and
`2i+1` are the lowercase hexadecimal digits of the high and low nibble of `v[i]`
(a byte below 0x10 is written with a leading `0`).  Hence `asciiToHex` is
injective on byte vectors and maps a concatenation to the concatenation. -/
theorem C15_asciiToHex (v : List Nat) (hbytes : ∀ b ∈ v, b < 256) :
    (asciiToHex v).length = 2 * v.length ∧
    (∀ c ∈ asciiToHex v, c ∈ "0123456789abcdef".toList) ∧
    (∀ i (h : i < v.length),
      (asciiToHex v)[2 * i]? = some (Nat.digitChar (v.get ⟨i, h⟩ / 16)) ∧
      (asciiToHex v)[2 * i + 1]? = some (Nat.digitChar (v.get ⟨i, h⟩ % 16))) ∧
    (∀ b, b < 0x10 → asciiToHex [b] = ['0', Nat.digitChar b]) ∧
    (∀ w, (∀ b ∈ w, b < 256) → asciiToHex v = asciiToHex w → v = w) ∧
    (∀ w, (∀ b ∈ w, b < 256) → asciiToHex (v ++ w) = asciiToHex v ++ asciiToHex w) ∧
    asciiToHex [0x2d, 0x53, 0x3b, 0x9d, 0x9f, 0x0f, 0x06, 0xef, 0x4e, 0x3c, 0x23, 0xfd, 0x49,
      0x6c, 0xfe, 0xb2, 0x78, 0x0e, 0xda, 0x7f] =
      "2d533b9d9f0f06ef4e3c23fd496cfeb2780eda7f".toList := by
  have e := asciiToHex_eq_flatMap v hbytes
  refine ⟨?_, ?_, ?_, ?_, ?_, ?_, by decide⟩
  · rw [e]
    clear e hbytes
    induction v with
    | nil => rfl
    | cons c cs ih =>
      simp only [List.flatMap_cons, List.length_append, ih, hexPair, List.length_cons,
        List.length_nil]
      omega
  · rw [e]
    intro c hc
    obtain ⟨b, hb, hcb⟩ := List.mem_flatMap.1 hc
    have hb256 := hbytes b hb
    simp only [hexPair, List.mem_cons, List.mem_singleton, List.not_mem_nil, or_false] at hcb
    rcases hcb with rfl | rfl
    · exact (hex_digit_facts ⟨b / 16, by omega⟩).1
    · exact (hex_digit_facts ⟨b % 16, by omega⟩).1
  · rw [e]
    exact fun i h => flatMap_hexPair_get v i h
  · intro b hb
    have h1 : asciiToHex [b] = setwFill 2 '0' (Nat.toDigits 16 (b % 256)) := by
      simp [asciiToHex]
    rw [h1]
    exact (hex_byte_facts ⟨b, by omega⟩).2 hb
  · intro w hw hvw
    rw [e, asciiToHex_eq_flatMap w hw] at hvw
    exact flatMap_hexPair_injective v w hbytes hw hvw
  · intro w hw
    have hvw : ∀ b ∈ v ++ w, b < 256 := by
      intro b hb
      rcases List.mem_append.1 hb with h1 | h1
      · exact hbytes b h1
      · exact hw b h1
    rw [e, asciiToHex_eq_flatMap w hw, asciiToHex_eq_flatMap (v ++ w) hvw, List.flatMap_append]

/-- C15, instance: three bytes, one of them below 0x10. -/
theorem C15_asciiToHex_witness :
    (asciiToHex [0x0f, 0xa0, 0x7f]).length = 2 * [0x0f, 0xa0, 0x7f].length ∧
    asciiToHex [0x0f, 0xa0, 0x7f] = ['0', 'f', 'a', '0', '7', 'f'] :=
  ⟨(C15_asciiToHex [0x0f, 0xa0, 0x7f] (by decide)).1, by decide⟩

/-- The scan of `find_first_not_of` fails exactly on strings made of characters
of `args` only. -/
theorem findFirstNotOfFrom_none {α : Type} [DecidableEq α] (args l : List α) (i : Nat) :
    findFirstNotOfFrom args l i = none ↔ ∀ c ∈ l, c ∈ args := by
  induction l generalizing i with
  | nil => simp [findFirstNotOfFrom]
  | cons c cs ih =>
    by_cases hc : c ∈ args
    · simp [findFirstNotOfFrom, hc, ih (i + 1)]
    · simp [findFirstNotOfFrom, hc]

/-- A position found by the scan of `find_first_not_of` is where the leading
characters of `args` end. -/
theorem findFirstNotOfFrom_some {α : Type} [DecidableEq α] (args l : List α) (i j : Nat)
    (h : findFirstNotOfFrom args l i = some j) :
    i ≤ j ∧ j < i + l.length ∧ l.drop (j - i) = l.dropWhile (fun c => decide (c ∈ args)) := by
  induction l generalizing i with
  | nil => simp [findFirstNotOfFrom] at h
  | cons c cs ih =>
    by_cases hc : c ∈ args
    · simp only [findFirstNotOfFrom, hc, if_true] at h
      obtain ⟨h1, h2, h3⟩ := ih (i + 1) h
      refine ⟨by omega, by simp only [List.length_cons]; omega, ?_⟩
      have e : j - i = (j - (i + 1)) + 1 := by omega
      rw [e, List.drop_succ_cons, h3, List.dropWhile_cons]
      simp [hc]
    · simp only [findFirstNotOfFrom, hc, if_false, Option.some.injEq] at h
      subst h
      refine ⟨Nat.le_refl _, by simp only [List.length_cons]; omega, ?_⟩
      rw [Nat.sub_self, List.drop_zero, List.dropWhile_cons]
      simp [hc]

/-- `leftTrim` drops the leading characters of `args`, except that a string made
of such characters only is returned unchanged. -/
theorem leftTrim_eq {α : Type} [DecidableEq α] (str args : List α) :
    leftTrim str args =
      if ∀ c ∈ str, c ∈ args then str else str.dropWhile (fun c => decide (c ∈ args)) := by
  unfold leftTrim find_first_not_of
  rcases h : findFirstNotOfFrom args str 0 with _ | j
  · rw [if_pos ((findFirstNotOfFrom_none args str 0).1 h)]
  · have hnot : ¬ ∀ c ∈ str, c ∈ args := by
      intro hall
      rw [(findFirstNotOfFrom_none args str 0).2 hall] at h
      cases h
    obtain ⟨-, -, h3⟩ := findFirstNotOfFrom_some args str 0 j h
    rw [if_neg hnot, ← h3, Nat.sub_zero]

/-- `rightTrim` is `leftTrim` on the reversed string. -/
theorem rightTrim_eq {α : Type} [DecidableEq α] (str args : List α) :
    rightTrim str args = (leftTrim str.reverse args).reverse := by
  unfold rightTrim find_last_not_of leftTrim find_first_not_of
  rcases h : findFirstNotOfFrom args str.reverse 0 with _ | k
  · simp
  · obtain ⟨-, h2, -⟩ := findFirstNotOfFrom_some args str.reverse 0 k h
    simp only [List.length_reverse, Nat.zero_add] at h2
    simp only [Option.map_some']
    rw [List.reverse_drop, List.reverse_reverse, List.length_reverse]
    congr 1
    omega

/-- The first character left by `dropWhile` fails the test. -/
theorem head?_dropWhile_mem {α : Type} [DecidableEq α] (args l : List α) (c : α)
    (h : (l.dropWhile (fun c => decide (c ∈ args))).head? = some c) : c ∉ args := by
  induction l with
  | nil => simp at h
  | cons x xs ih =>
    rw [List.dropWhile_cons] at h
    by_cases hx : x ∈ args
    · simp only [hx, decide_True, if_true] at h
      exact ih h
    · simp only [hx, decide_False, Bool.false_eq_true, if_false, List.head?_cons,
        Option.some.injEq] at h
      exact h ▸ hx

/-- Something is left by `dropWhile` when some character fails the test. -/
theorem dropWhile_ne_nil {α : Type} [DecidableEq α] (args l : List α)
    (h : ¬ ∀ c ∈ l, c ∈ args) : l.dropWhile (fun c => decide (c ∈ args)) ≠ [] := by
  induction l with
  | nil => exact absurd (fun _ hc => by simp at hc) h
  | cons x xs ih =>
    rw [List.dropWhile_cons]
    by_cases hx : x ∈ args
    · simp only [hx, decide_True, if_true]
      apply ih
      intro hall
      apply h
      intro c hc
      rcases List.mem_cons.1 hc with rfl | hc'
      · exact hx
      · exact hall c hc'
    · simp [hx]

/-- C16 fails on the code: `trim` of a string made of characters of `args` only
is that string, unchanged (three spaces trimmed of spaces remain three spaces,
which begin and end with a space).  On every string holding a character outside
`args` the result neither begins nor ends with a character of `args`. -/
theorem C16_trim :
    trim [' ', ' ', ' '] [' '] = [' ', ' ', ' '] ∧
    (∀ {α : Type} [DecidableEq α] (str args : List α),
      (∀ c ∈ str, c ∈ args) → trim str args = str) ∧
    (∀ {α : Type} [DecidableEq α] (str args : List α), (¬ ∀ c ∈ str, c ∈ args) →
      (∀ c, (trim str args).head? = some c → c ∉ args) ∧
      (∀ c, (trim str args).getLast? = some c → c ∉ args)) := by
  refine ⟨by decide, ?_, ?_⟩
  · intro α _ str args hall
    have hrev : ∀ c ∈ str.reverse, c ∈ args := fun c hc => hall c (List.mem_reverse.1 hc)
    unfold trim
    rw [rightTrim_eq, leftTrim_eq str.reverse, if_pos hrev, List.reverse_reverse, leftTrim_eq,
      if_pos hall]
  · intro α _ str args hnot
    have hrev : ¬ ∀ c ∈ str.reverse, c ∈ args := fun hall =>
      hnot (fun c hc => hall c (List.mem_reverse.2 hc))
    have hD := dropWhile_ne_nil args str.reverse hrev
    obtain ⟨x, hx⟩ : ∃ x, (str.reverse.dropWhile (fun c => decide (c ∈ args))).head? = some x := by
      rcases hd : str.reverse.dropWhile (fun c => decide (c ∈ args)) with _ | ⟨x, xs⟩
      · exact absurd hd hD
      · exact ⟨x, rfl⟩
    have hxa : x ∉ args := head?_dropWhile_mem args str.reverse x hx
    have hR : rightTrim str args =
        (str.reverse.dropWhile (fun c => decide (c ∈ args))).reverse := by
      rw [rightTrim_eq, leftTrim_eq, if_neg hrev]
    have hRlast : (rightTrim str args).getLast? = some x := by
      rw [hR, List.getLast?_reverse, hx]
    have hRnot : ¬ ∀ c ∈ rightTrim str args, c ∈ args := by
      intro hall
      exact hxa (hall x (List.mem_of_getLast?_eq_some hRlast))
    have hT : trim str args = (rightTrim str args).dropWhile (fun c => decide (c ∈ args)) := by
      unfold trim
      rw [leftTrim_eq, if_neg hRnot]
    refine ⟨fun c hc => ?_, fun c hc => ?_⟩
    · rw [hT] at hc
      exact head?_dropWhile_mem args _ c hc
    · have hTne := dropWhile_ne_nil args (rightTrim str args) hRnot
      obtain ⟨t, ht⟩ := List.dropWhile_suffix (l := rightTrim str args)
        (fun c => decide (c ∈ args))
      rw [← hT] at ht hTne
      have : (rightTrim str args).getLast? = (trim str args).getLast? := by
        rw [← ht, List.getLast?_append]
        rcases hl : (trim str args).getLast? with _ | y
        · exact absurd (List.getLast?_eq_none_iff.1 hl) hTne
        · rfl
      rw [← this, hRlast] at hc
      cases hc
      exact hxa

/-- `startsWith` answers true exactly on a non-empty string with the given
prefix. -/
theorem startsWith_iff {α : Type} [DecidableEq α] (str start : List α) :
    startsWith str start = true ↔ (str ≠ [] ∧ start <+: str) := by
  unfold startsWith
  rcases str with _ | ⟨c, cs⟩
  · simp
  · by_cases hl : start.length ≤ (c :: cs).length
    · simp only [List.isEmpty_cons, Bool.not_false, Bool.true_and, decide_eq_true_eq, hl,
        if_true, ne_eq, reduceCtorEq, not_false_eq_true, true_and]
      rw [List.prefix_iff_eq_take]
      exact eq_comm
    · simp only [List.isEmpty_cons, Bool.not_false, Bool.true_and, decide_eq_true_eq, hl,
        if_false, Bool.false_eq_true, ne_eq, reduceCtorEq, not_false_eq_true, true_and,
        false_iff]
      intro hp
      exact hl hp.length_le

/-- C17 as stated fails at the empty string: the empty string is a prefix of the
empty string, yet `startsWith("", "")` is false. -/
theorem C17_startsWith_counterexample :
    startsWith ([] : List Char) [] = false ∧ ([] : List Char) <+: [] :=
  ⟨by decide, List.prefix_refl _⟩

/-- C17, amended: `startsWith(str, start)` returns true exactly when `str` is not
empty and `start` is a prefix of `str`. -/
theorem C17_startsWith {α : Type} [DecidableEq α] (str start : List α) :
    startsWith str start = true ↔ (str ≠ [] ∧ start <+: str) :=
  startsWith_iff str start

/-- C18: for a non-empty `ending`, `endsWith(str, ending)` returns true exactly
when `ending` is a suffix of `str`; it returns false when `str` is empty or
shorter than `ending`, and `endsWith(ending, ending)` is true. -/
theorem C18_endsWith {α : Type} [DecidableEq α] (str ending : List α) (hne : ending ≠ []) :
    (endsWith str ending = true ↔ ending <:+ str) ∧
    (str = [] → endsWith str ending = false) ∧
    (str.length < ending.length → endsWith str ending = false) ∧
    endsWith ending ending = true := by
  have main : ∀ s : List α, endsWith s ending = true ↔ ending <:+ s := by
    intro s
    unfold endsWith
    rcases s with _ | ⟨c, cs⟩
    · simp [hne]
    · by_cases hl : ending.length ≤ (c :: cs).length
      · have ht : ((c :: cs).drop ((c :: cs).length - ending.length)).take ending.length =
            (c :: cs).drop ((c :: cs).length - ending.length) := by
          apply List.take_of_length_le
          rw [List.length_drop]
          omega
        simp only [List.isEmpty_cons, Bool.not_false, Bool.true_and, decide_eq_true_eq, hl,
          if_true, ht]
        rw [List.suffix_iff_eq_drop]
        exact eq_comm
      · simp only [List.isEmpty_cons, Bool.not_false, Bool.true_and, decide_eq_true_eq, hl,
          if_false, Bool.false_eq_true, false_iff]
        intro hs
        exact hl hs.length_le
  refine ⟨main str, ?_, ?_, (main ending).2 (List.suffix_refl _)⟩
  · rintro rfl
    simp [endsWith]
  · intro hlt
    rcases h : endsWith str ending with _ | _
    · rfl
    · have := ((main str).1 h).length_le
      omega

/-- C18, instance: the ending `_package` of the unit test. -/
theorem C18_endsWith_witness :
    (endsWith "x_package".toList "_package".toList = true ↔
      "_package".toList <:+ "x_package".toList) ∧
    endsWith "x_package".toList "_package".toList = true :=
  ⟨(C18_endsWith "x_package".toList "_package".toList (by decide)).1, by decide⟩

/-- C19: for a non-empty `args`, `substrOnFirstOccurrence(str, args)` is the
prefix of `str` that ends just before the first occurrence of `args`, and `str`
itself when `args` does not occur; in every case it is a prefix of `str` in
which `args` does not occur. -/
theorem C19_substrOnFirstOccurrence {α : Type} [DecidableEq α] (str args : List α)
    (hne : args ≠ []) :
    (args <:+: str → ∃ p s, str = p ++ args ++ s ∧
      (∀ p' s', str = p' ++ args ++ s' → p.length ≤ p'.length) ∧
      substrOnFirstOccurrence str args = p) ∧
    (¬ args <:+: str → substrOnFirstOccurrence str args = str) ∧
    substrOnFirstOccurrence str args <+: str ∧
    ¬ args <:+: substrOnFirstOccurrence str args := by
  have hs := find_zero_isSome str args
  unfold substrOnFirstOccurrence
  rcases hf : find str args 0 with _ | pos
  · rw [hf] at hs
    have hnot : ¬ args <:+: str := fun h => absurd (hs.2 h) (by simp)
    exact ⟨fun h => absurd h hnot, fun _ => rfl, List.prefix_refl _, hnot⟩
  · rw [find_zero] at hf
    obtain ⟨p, s, e, hpos, hmin⟩ := findFrom_some args str 0 pos hf
    have hp : pos = p.length := by omega
    have htake : str.take pos = p := by
      rw [e, hp, List.append_assoc, List.take_left]
    simp only [htake]
    refine ⟨fun _ => ⟨p, s, e, hmin, rfl⟩, fun hnot => absurd ⟨p, s, e.symm⟩ hnot,
      ⟨args ++ s, by rw [e, List.append_assoc]⟩, ?_⟩
    rintro ⟨p1, s1, e1⟩
    have hlen := hmin p1 (s1 ++ args ++ s) (by rw [e, ← e1]; simp)
    have hargs : 0 < args.length := List.length_pos.2 hne
    have : p.length = p1.length + args.length + s1.length := by
      rw [← e1]
      simp only [List.length_append]
    omega

/-- C19, instance: the text before `world` in the unit test string. -/
theorem C19_substrOnFirstOccurrence_witness :
    substrOnFirstOccurrence "hello         world".toList "world".toList <+:
      "hello         world".toList ∧
    ¬ "world".toList <:+: substrOnFirstOccurrence "hello         world".toList "world".toList ∧
    substrOnFirstOccurrence "hello         world".toList "world".toList =
      "hello         ".toList :=
  have h := C19_substrOnFirstOccurrence "hello         world".toList "world".toList (by decide)
  ⟨h.2.2.1, h.2.2.2, by decide⟩

/-- C20: with a non-empty `start` that is not a prefix of the input,
`findRegexInString` returns false and leaves `match` unchanged, whatever the
regular-expression engine would answer (it is not consulted); with an empty
`start` the prefix check is skipped and the returned flag is that of the
regular-expression search alone. -/
theorem C20_findRegexInString {α Regex : Type} [DecidableEq α]
    (regex_search : List α → Regex → Option (List (List α)))
    (input matchOut : List α) (pattern : Regex) (matchIndex : Nat) (start : List α) :
    (start ≠ [] → ¬ start <+: input →
      ∀ engine : List α → Regex → Option (List (List α)),
        findRegexInString engine input matchOut pattern matchIndex start = (false, matchOut)) ∧
    (findRegexInString regex_search input matchOut pattern matchIndex []).1 =
      (regex_search input pattern).isSome := by
  refine ⟨?_, ?_⟩
  · intro hne hnp engine
    have h1 : start.isEmpty = false := by
      rcases start with _ | ⟨c, cs⟩
      · exact absurd rfl hne
      · rfl
    have h2 : startsWith input start = false := by
      rcases h : startsWith input start with _ | _
      · rfl
      · exact absurd ((startsWith_iff input start).1 h).2 hnp
    simp [findRegexInString, h1, h2]
  · unfold findRegexInString
    rcases regex_search input pattern with _ | sm <;> simp

/-- C20, instance: the unit test with prefix `OTHERPREFIX`, against an engine
that would match everything. -/
theorem C20_findRegexInString_witness :
    findRegexInString (fun inp (_ : Unit) => some [inp]) "PREFIX Some random content".toList
      [] () 0 "OTHERPREFIX".toList = (false, []) :=
  (C20_findRegexInString (fun inp (_ : Unit) => some [inp])
    "PREFIX Some random content".toList [] () 0 "OTHERPREFIX".toList).1
    (by decide) (by decide) (fun inp (_ : Unit) => some [inp])

/-- What a successful `find` from `pos` says: the pattern stands at the returned
position, which is at or after `pos`. -/
theorem find_some {α : Type} [DecidableEq α] (data pat : List α) (pos j : Nat)
    (h : find data pat pos = some j) :
    pos ≤ data.length ∧ ∃ p t, data.drop pos = p ++ pat ++ t ∧ j = pos + p.length := by
  unfold find at h
  split at h
  · next hle =>
    obtain ⟨p, t, e, hj, -⟩ := findFrom_some pat (data.drop pos) pos j h
    exact ⟨hle, p, t, e, hj⟩
  · cases h

/-- `find` from `pos` succeeds when the pattern occurs from `pos` on. -/
theorem find_isSome_of_infix {α : Type} [DecidableEq α] (data pat : List α) (pos : Nat)
    (hle : pos ≤ data.length) (h : pat <:+: data.drop pos) :
    ∃ j, find data pat pos = some j := by
  unfold find
  rw [if_pos hle]
  rcases hf : findFrom pat (data.drop pos) pos with _ | j
  · exact absurd h (findFrom_none pat _ pos hf)
  · exact ⟨j, rfl⟩

/-- The string after a replacement at a position where `toSearch` stands. -/
theorem replace_at_occurrence {α : Type} (data toSearch toReplace S : List α) (pos : Nat)
    (hocc : data.drop pos = toSearch ++ S) :
    replace data pos toSearch.length toReplace = data.take pos ++ toReplace ++ S := by
  unfold replace
  rw [← List.drop_drop, hocc, List.drop_left]

/-- The part of a string from a position inside it. -/
theorem drop_take_append {α : Type} (data rest : List α) (pos : Nat) (hle : pos ≤ data.length) :
    (data.take pos ++ rest).drop pos = rest := by
  have hl : (data.take pos).length = pos := by
    rw [List.length_take]
    omega
  exact List.drop_left' hl

/-- The loop of `replaceAll` ends when `toSearch` is not empty and does not
occur in `toReplace`: each iteration shortens the part of the string after the
occurrence being replaced. -/
theorem replaceAllLoop_terminates {α : Type} [DecidableEq α] (toSearch toReplace : List α)
    (hnot : ¬ toSearch <:+: toReplace) (fuel : Nat) (data : List α) (pos : Nat) (S : List α)
    (hocc : data.drop pos = toSearch ++ S) (hle : pos ≤ data.length) (hf : S.length < fuel) :
    ∃ d, replaceAllLoop toSearch toReplace fuel data (some pos) = some d := by
  induction fuel generalizing data pos S with
  | zero => omega
  | succ f ih =>
    simp only [replaceAllLoop]
    rw [replace_at_occurrence data toSearch toReplace S pos hocc]
    rcases hfind : find (data.take pos ++ toReplace ++ S) toSearch pos with _ | j
    · cases f <;> exact ⟨_, rfl⟩
    · obtain ⟨hle', p, t, e, hj⟩ := find_some _ _ _ _ hfind
      rw [List.append_assoc, drop_take_append data _ pos hle] at e
      have hlen : (toReplace ++ S).length = (p ++ toSearch ++ t).length := by rw [e]
      simp only [List.length_append] at hlen
      have hshort : t.length < S.length := by
        by_contra hge
        apply hnot
        have hk : p.length + toSearch.length ≤ toReplace.length := by omega
        have h1 : (toReplace ++ S).take (p.length + toSearch.length) =
            (p ++ toSearch ++ t).take (p.length + toSearch.length) := by rw [e]
        rw [List.take_append_of_le_length hk] at h1
        have h2 : (p ++ toSearch ++ t).take (p.length + toSearch.length) = p ++ toSearch := by
          rw [show p.length + toSearch.length = (p ++ toSearch).length by simp]
          exact List.take_left _ _
        rw [h2] at h1
        have h3 : toSearch <:+: toReplace.take (p.length + toSearch.length) := by
          rw [h1]
          exact ⟨p, [], by simp⟩
        exact h3.trans (List.take_prefix _ _).isInfix
      apply ih (data.take pos ++ toReplace ++ S) j t
      · rw [hj, ← List.drop_drop, List.append_assoc, drop_take_append data _ pos hle, e,
          List.append_assoc, List.drop_left]
      · have h4 : (data.take pos ++ toReplace ++ S).length = pos + (toReplace ++ S).length := by
          rw [List.append_assoc, List.length_append, List.length_take]
          omega
        rw [h4, e]
        simp only [List.length_append]
        omega
      · omega

/-- The loop of `replaceAll` never ends when `toSearch` occurs in `toReplace`:
every replacement puts an occurrence at or after the position searched next. -/
theorem replaceAllLoop_diverges {α : Type} [DecidableEq α] (toSearch toReplace : List α)
    (hin : toSearch <:+: toReplace) (fuel : Nat) (data : List α) (pos : Nat)
    (hle : pos ≤ data.length) :
    replaceAllLoop toSearch toReplace fuel data (some pos) = none := by
  induction fuel generalizing data pos with
  | zero => rfl
  | succ f ih =>
    simp only [replaceAllLoop]
    have hlen : pos ≤ (replace data pos toSearch.length toReplace).length := by
      unfold replace
      simp only [List.length_append, List.length_take]
      omega
    have hdrop : (replace data pos toSearch.length toReplace).drop pos =
        toReplace ++ data.drop (pos + toSearch.length) := by
      unfold replace
      rw [List.append_assoc, drop_take_append data _ pos hle]
    obtain ⟨j, hj⟩ := find_isSome_of_infix (replace data pos toSearch.length toReplace)
      toSearch pos hlen (by
        rw [hdrop]
        exact hin.trans (List.prefix_append _ _).isInfix)
    rw [hj]
    obtain ⟨-, p, t, e, hjp⟩ := find_some _ _ _ _ hj
    apply ih
    have h5 : ((replace data pos toSearch.length toReplace).drop pos).length =
        (p ++ toSearch ++ t).length := by rw [e]
    rw [List.length_drop] at h5
    simp only [List.length_append] at h5
    omega

/-- C21 fails on the code: an occurrence of `toSearch` that a replacement
creates to the left of the replaced position is not found again, because the
search resumes at that position.  In `aab`, replacing `ab` by `b` gives `ab`,
which still holds `ab`, although `ab` is not empty and does not occur in `b`.
Occurrences created at or after the position are replaced, as in the unit test
that collapses a run of spaces. -/
theorem C21_replaceAll_leaves_occurrence :
    replaceAll 5 "aab".toList "ab".toList "b".toList = some (true, "ab".toList) ∧
    "ab".toList <:+: "ab".toList ∧ "ab".toList ≠ [] ∧ ¬ "ab".toList <:+: "b".toList ∧
    replaceAll 20 "hello         world".toList "  ".toList " ".toList =
      some (true, "hello world".toList) ∧
    ¬ "  ".toList <:+: "hello world".toList := by
  refine ⟨by decide, List.infix_refl _, by decide, ?_, by decide, ?_⟩
  · intro h
    have := h.length_le
    simp at this
  · intro h
    have h2 := (find_zero_isSome "hello world".toList "  ".toList).2 h
    revert h2
    decide

/-- C25: `replaceAll` ends on every `data` when `toSearch` is not empty and does
not occur in `toReplace` (a bound of `|data| + 1` iterations is enough).  It
never ends when `toSearch` occurs in `toReplace` and in `data`; in particular
it never ends when `toSearch` is empty. -/
theorem C25_replaceAll_termination {α : Type} [DecidableEq α]
    (data toSearch toReplace : List α) :
    (toSearch ≠ [] → ¬ toSearch <:+: toReplace →
      ∀ fuel, data.length < fuel → ∃ r, replaceAll fuel data toSearch toReplace = some r) ∧
    (toSearch <:+: toReplace → toSearch <:+: data →
      ∀ fuel, replaceAll fuel data toSearch toReplace = none) ∧
    (∀ fuel, replaceAll fuel data [] toReplace = none) := by
  have div : ∀ s : List α, s <:+: toReplace → s <:+: data →
      ∀ fuel, replaceAll fuel data s toReplace = none := by
    intro s hin hdata fuel
    unfold replaceAll
    rcases hf : find data s 0 with _ | pos
    · have := (find_zero_isSome data s).2 hdata
      rw [hf] at this
      cases this
    · obtain ⟨-, p, t, e, hj⟩ := find_some _ _ _ _ hf
      have hl : (data.drop 0).length = (p ++ s ++ t).length := by rw [e]
      simp only [List.drop_zero, List.length_append] at hl
      rw [replaceAllLoop_diverges s toReplace hin fuel data pos (by omega)]
      rfl
  refine ⟨?_, div toSearch, ?_⟩
  · intro _ hnot fuel hfuel
    unfold replaceAll
    rcases hf : find data toSearch 0 with _ | pos
    · cases fuel <;> exact ⟨_, rfl⟩
    · obtain ⟨-, p, t, e, hj⟩ := find_some _ _ _ _ hf
      have hl : (data.drop 0).length = (p ++ toSearch ++ t).length := by rw [e]
      simp only [List.drop_zero, List.length_append] at hl
      obtain ⟨d, hd⟩ := replaceAllLoop_terminates toSearch toReplace hnot fuel data pos t
        (by
          rw [hj, Nat.zero_add]
          have e' : data = p ++ toSearch ++ t := by simpa using e
          conv_lhs => rw [e', List.append_assoc]
          exact List.drop_left _ _)
        (by omega) (by omega)
      rw [hd]
      exact ⟨_, rfl⟩
  · intro fuel
    exact div [] ⟨[], toReplace, by simp⟩ ⟨[], data, by simp⟩ fuel

/-- The scan passes a character that is neither delimiter nor escape. -/
theorem scanSplitFrom_plain {α : Type} [DecidableEq α] (d e c : α) (cs : List α) (i : Nat)
    (hd : c ≠ d) (he : c ≠ e) :
    scanSplitFrom d e (c :: cs) i = scanSplitFrom d e cs (i + 1) := by
  rcases cs with _ | ⟨c', cs'⟩
  · simp [scanSplitFrom, hd]
  · simp [scanSplitFrom, hd, he]

/-- The scan skips the character after an escape character. -/
theorem scanSplitFrom_escape {α : Type} [DecidableEq α] (d e : α) (cs : List α) (i : Nat)
    (hde : e ≠ d) :
    scanSplitFrom d e (e :: cs) i = scanSplitFrom d e (cs.drop 1) (i + 2) := by
  rcases cs with _ | ⟨c', cs'⟩
  · simp [scanSplitFrom, hde]
  · simp [scanSplitFrom, hde]

/-- The scan stops at a delimiter. -/
theorem scanSplitFrom_delimiter {α : Type} [DecidableEq α] (d e : α) (cs : List α) (i : Nat) :
    scanSplitFrom d e (d :: cs) i = some i := by
  rcases cs with _ | ⟨c', cs'⟩ <;> simp [scanSplitFrom]

/-- The scan passes a run of characters that are neither delimiter nor
escape. -/
theorem scanSplitFrom_plain_run {α : Type} [DecidableEq α] (d e : α) (pre l : List α)
    (i : Nat) (hpre : ∀ c ∈ pre, c ≠ d ∧ c ≠ e) :
    scanSplitFrom d e (pre ++ l) i = scanSplitFrom d e l (i + pre.length) := by
  induction pre generalizing i with
  | nil => rfl
  | cons c cs ih =>
    obtain ⟨hd, he⟩ := hpre c (List.mem_cons_self _ _)
    rw [List.cons_append, scanSplitFrom_plain d e c _ i hd he,
      ih (i + 1) (fun x hx => hpre x (List.mem_cons_of_mem _ hx)), List.length_cons]
    congr 1
    omega

/-- A split point found by the scan lies in the scanned range. -/
theorem scanSplitFrom_range {α : Type} [DecidableEq α] (d e : α) (n : Nat) :
    ∀ (l : List α) (i k : Nat), l.length ≤ n → scanSplitFrom d e l i = some k →
      i ≤ k ∧ k < i + l.length := by
  induction n with
  | zero =>
    intro l i k hl h
    have : l = [] := List.length_eq_zero.1 (by omega)
    subst this
    simp [scanSplitFrom] at h
  | succ n ih =>
    intro l i k hl h
    rcases l with _ | ⟨c, cs⟩
    · simp [scanSplitFrom] at h
    · by_cases hd : c = d
      · subst hd
        rw [scanSplitFrom_delimiter] at h
        simp only [Option.some.injEq] at h
        simp only [List.length_cons]
        omega
      · by_cases he : c = e
        · subst he
          rw [scanSplitFrom_escape d c cs i hd] at h
          have := ih (cs.drop 1) (i + 2) k (by
            simp only [List.length_drop, List.length_cons] at hl ⊢
            omega) h
          simp only [List.length_drop, List.length_cons] at this ⊢
          omega
        · rw [scanSplitFrom_plain d e c cs i hd he] at h
          have := ih cs (i + 1) k (by simpa using hl) h
          simp only [List.length_cons]
          omega

/-- The character at the head of the part of a string from index `i`. -/
theorem getElem?_of_drop {α : Type} (str : List α) (i : Nat) (c : α) (cs : List α)
    (h : str.drop i = c :: cs) : str[i]? = some c ∧ str.drop (i + 1) = cs ∧
      str.drop (i + 2) = cs.drop 1 := by
  have h1 : str[i]? = some c := by
    have := congrArg List.head? h
    rw [List.head?_drop] at this
    simpa using this
  have h2 : str.drop (i + 1) = cs := by
    rw [← List.drop_drop, h]
    rfl
  refine ⟨h1, h2, ?_⟩
  rw [show i + 2 = (i + 1) + 1 by omega, ← List.drop_drop, h2]

/-- The loop of `splitKeyValueNonEscapedDelimiter`, started where
`find_first_of` leads from index `i`, returns the cut at the split point of the
scan from index `i`. -/
theorem splitKeyValueLoop_scan {α : Type} [DecidableEq α] (str : List α) (d e : α) (n : Nat) :
    ∀ (l : List α) (i fuel : Nat), l.length ≤ n → str.drop i = l → l.length < fuel →
      splitKeyValueLoop str d [e, d] fuel (findFirstOfFrom [e, d] l i) =
        some (cutAt str (scanSplitFrom d e l i)) := by
  induction n with
  | zero =>
    intro l i fuel hl _ _
    have : l = [] := List.length_eq_zero.1 (by omega)
    subst this
    cases fuel <;> rfl
  | succ n ih =>
    intro l i fuel hl hdrop hfuel
    rcases l with _ | ⟨c, cs⟩
    · cases fuel <;> rfl
    · obtain ⟨hget, hd1, hd2⟩ := getElem?_of_drop str i c cs hdrop
      obtain ⟨f, rfl⟩ : ∃ f, fuel = f + 1 := ⟨fuel - 1, by omega⟩
      simp only [List.length_cons] at hl hfuel
      by_cases hd : c = d
      · subst hd
        rw [scanSplitFrom_delimiter]
        simp [findFirstOfFrom, splitKeyValueLoop, hget, cutAt]
      · by_cases he : c = e
        · subst he
          rw [scanSplitFrom_escape d c cs i hd]
          have hstep : splitKeyValueLoop str d [c, d] (f + 1)
              (findFirstOfFrom [c, d] (c :: cs) i) =
              splitKeyValueLoop str d [c, d] f (findFirstOfFrom [c, d] (cs.drop 1) (i + 2)) := by
            simp [findFirstOfFrom, splitKeyValueLoop, hget, hd, find_first_of, hd2]
          rw [hstep]
          exact ih (cs.drop 1) (i + 2) f (by simp only [List.length_drop]; omega) hd2
            (by simp only [List.length_drop]; omega)
        · have hstep : findFirstOfFrom [e, d] (c :: cs) i = findFirstOfFrom [e, d] cs (i + 1) := by
            simp [findFirstOfFrom, hd, he]
          rw [hstep, scanSplitFrom_plain d e c cs i hd he]
          exact ih cs (i + 1) (f + 1) (by omega) hd1 (by omega)

/-- C22: `splitKeyValueNonEscapedDelimiter` returns the cut of the string at the
split point of the left-to-right scan in which a delimiter is the split point
and an escape character consumes the character after it; without a split point
the result is the string and the empty string.  Hence, with the delimiter
different from the escape character: a delimiter directly after an escape
character that the scan meets is passed over and stays in the key with its
escape character; a scan that ends on an escape character, alone or with the
character it consumes, gives no split.  The key of `he\:llo:world` is `he\:llo`
and its value `world`. -/
theorem C22_splitKeyValue_scan {α : Type} [DecidableEq α] (str : List α) (d e : α) :
    splitKeyValueNonEscapedDelimiter str d e = some (cutAt str (scanSplitFrom d e str 0)) ∧
    (d ≠ e → ∀ pre rest, (∀ c ∈ pre, c ≠ d ∧ c ≠ e) → str = pre ++ e :: d :: rest →
      scanSplitFrom d e str 0 = scanSplitFrom d e rest (pre.length + 2) ∧
      ∃ key value, splitKeyValueNonEscapedDelimiter str d e = some (key, value) ∧
        (pre ++ [e, d]) <+: key) ∧
    (d ≠ e → ∀ pre, (∀ c ∈ pre, c ≠ d ∧ c ≠ e) →
      (str = pre ++ [e] ∨ ∃ x, str = pre ++ [e, x]) →
      splitKeyValueNonEscapedDelimiter str d e = some (str, [])) ∧
    splitKeyValueNonEscapedDelimiter "he\\:llo:world".toList ':' '\\' =
      some ("he\\:llo".toList, "world".toList) ∧
    splitKeyValueNonEscapedDelimiter "he\\:llo:".toList ':' '\\' =
      some ("he\\:llo".toList, []) := by
  have main : ∀ s : List α,
      splitKeyValueNonEscapedDelimiter s d e = some (cutAt s (scanSplitFrom d e s 0)) := by
    intro s
    unfold splitKeyValueNonEscapedDelimiter find_first_of
    rw [List.drop_zero]
    exact splitKeyValueLoop_scan s d e s.length s 0 (s.length + 1) (Nat.le_refl _) rfl
      (Nat.lt_succ_self _)
  refine ⟨main str, ?_, ?_, by decide, by decide⟩
  · intro hde pre rest hpre hstr
    have hscan : scanSplitFrom d e str 0 = scanSplitFrom d e rest (pre.length + 2) := by
      rw [hstr, scanSplitFrom_plain_run d e pre _ 0 hpre,
        scanSplitFrom_escape d e _ _ (Ne.symm hde)]
      simp
    refine ⟨hscan, ?_⟩
    rw [main str, hscan]
    rcases hk : scanSplitFrom d e rest (pre.length + 2) with _ | k
    · exact ⟨str, [], rfl, by rw [hstr]; exact ⟨rest, by simp⟩⟩
    · obtain ⟨h1, -⟩ := scanSplitFrom_range d e rest.length rest _ k (Nat.le_refl _) hk
      refine ⟨str.take k, str.drop (k + 1), rfl, ?_⟩
      have e1 : str = (pre ++ [e, d]) ++ rest := by rw [hstr]; simp
      rw [e1, List.take_append_eq_append_take]
      have hlen : (pre ++ [e, d]).length ≤ k := by
        simp only [List.length_append, List.length_cons, List.length_nil]
        omega
      rw [List.take_of_length_le hlen]
      exact List.prefix_append _ _
  · intro hde pre hpre hstr
    rw [main str]
    have hnone : scanSplitFrom d e str 0 = none := by
      rcases hstr with rfl | ⟨x, rfl⟩
      · rw [scanSplitFrom_plain_run d e pre _ 0 hpre,
          scanSplitFrom_escape d e _ _ (Ne.symm hde)]
        rfl
      · rw [scanSplitFrom_plain_run d e pre _ 0 hpre,
          scanSplitFrom_escape d e _ _ (Ne.symm hde)]
        rfl
    rw [hnone]
    rfl

/-- C23: `leftTrim` returns a suffix of the string and `rightTrim` a prefix, and
every character removed belongs to `args`, so that no character outside `args`
is removed.  With the default `args`, a space, `rightTrim` removes only the
final space of the unit-test string. -/
theorem C23_trim_removes_only_args {α : Type} [DecidableEq α] (str args : List α) :
    (∃ removed, str = removed ++ leftTrim str args ∧ ∀ c ∈ removed, c ∈ args) ∧
    (∃ removed, str = rightTrim str args ++ removed ∧ ∀ c ∈ removed, c ∈ args) ∧
    leftTrim str args <:+ str ∧ rightTrim str args <+: str ∧
    rightTrim " \t\nHello \t\n ".toList " ".toList = " \t\nHello \t\n".toList ∧
    leftTrim " \t\nHello\t\n ".toList " \t\n".toList = "Hello\t\n ".toList := by
  have left : ∀ s : List α,
      ∃ removed, s = removed ++ leftTrim s args ∧ ∀ c ∈ removed, c ∈ args := by
    intro s
    rw [leftTrim_eq]
    split
    · exact ⟨[], rfl, fun c hc => by simp at hc⟩
    · refine ⟨s.takeWhile (fun c => decide (c ∈ args)), (List.takeWhile_append_dropWhile _ _).symm,
        ?_⟩
      intro c hc
      simpa using List.mem_takeWhile_imp hc
  have right : ∃ removed, str = rightTrim str args ++ removed ∧ ∀ c ∈ removed, c ∈ args := by
    obtain ⟨removed, e, h⟩ := left str.reverse
    refine ⟨removed.reverse, ?_, fun c hc => h c (List.mem_reverse.1 hc)⟩
    rw [rightTrim_eq, ← List.reverse_append, ← e, List.reverse_reverse]
  obtain ⟨r1, e1, h1⟩ := left str
  obtain ⟨r2, e2, h2⟩ := right
  exact ⟨⟨r1, e1, h1⟩, ⟨r2, e2, h2⟩, ⟨r1, e1.symm⟩, ⟨r2, e2.symm⟩, by decide, by decide⟩

set_option maxRecDepth 100000 in
/-- On an ASCII character `toupper` gives an ASCII character that `toupper`
leaves unchanged. -/
theorem toupper_ascii : ∀ c : Fin 128,
    toupper c.val % 256 = toupper c.val ∧ toupper c.val < 128 ∧
    toupper (toupper c.val) = toupper c.val := by
  decide

/-- C24: for every ASCII string, `toUpperCase` keeps the length, maps each letter
`a`-`z` to the corresponding letter `A`-`Z` (32 below it) and leaves every other
character unchanged at its position, and applying it twice is the same as
applying it once. -/
theorem C24_toUpperCase (str : List Nat) (hascii : ∀ c ∈ str, c < 128) :
    (toUpperCase str).length = str.length ∧
    (∀ i (h : i < str.length),
      (97 ≤ str.get ⟨i, h⟩ ∧ str.get ⟨i, h⟩ ≤ 122 →
        (toUpperCase str)[i]? = some (str.get ⟨i, h⟩ - 32)) ∧
      (¬ (97 ≤ str.get ⟨i, h⟩ ∧ str.get ⟨i, h⟩ ≤ 122) →
        (toUpperCase str)[i]? = some (str.get ⟨i, h⟩))) ∧
    toUpperCase (toUpperCase str) = toUpperCase str ∧
    toUpperCase ("HeLlO WoRlD 123".toList.map Char.toNat) =
      "HELLO WORLD 123".toList.map Char.toNat := by
  have hmap : toUpperCase str = str.map toupper := by
    unfold toUpperCase
    apply List.map_congr_left
    intro c hc
    exact (toupper_ascii ⟨c, hascii c hc⟩).1
  refine ⟨by simp [toUpperCase], ?_, ?_, by decide⟩
  · intro i h
    have hget : (toUpperCase str)[i]? = some (toupper (str.get ⟨i, h⟩)) := by
      rw [hmap, List.getElem?_map, List.getElem?_eq_getElem h]
      rfl
    rw [hget]
    refine ⟨fun hr => ?_, fun hr => ?_⟩
    · rw [show toupper (str.get ⟨i, h⟩) = str.get ⟨i, h⟩ - 32 from if_pos hr]
    · rw [show toupper (str.get ⟨i, h⟩) = str.get ⟨i, h⟩ from if_neg hr]
  · have h2 : ∀ c ∈ str.map toupper, c < 128 := by
      intro c hc
      obtain ⟨x, hx, rfl⟩ := List.mem_map.1 hc
      exact (toupper_ascii ⟨x, hascii x hx⟩).2.1
    have hmap2 : toUpperCase (str.map toupper) = (str.map toupper).map toupper := by
      unfold toUpperCase
      apply List.map_congr_left
      intro c hc
      obtain ⟨x, hx, rfl⟩ := List.mem_map.1 hc
      have hx2 := (toupper_ascii ⟨x, hascii x hx⟩).2.1
      exact (toupper_ascii ⟨toupper x, hx2⟩).1
    rw [hmap, hmap2, List.map_map]
    apply List.map_congr_left
    intro c hc
    exact (toupper_ascii ⟨c, hascii c hc⟩).2.2

/-- C24, instance: the mixed-case unit-test string. -/
theorem C24_toUpperCase_witness :
    (toUpperCase ("HeLlO".toList.map Char.toNat)).length = ("HeLlO".toList.map Char.toNat).length ∧
    toUpperCase (toUpperCase ("HeLlO".toList.map Char.toNat)) =
      toUpperCase ("HeLlO".toList.map Char.toNat) :=
  have h := C24_toUpperCase ("HeLlO".toList.map Char.toNat) (by decide)
  ⟨h.1, h.2.2.1⟩

end Utils

/-! ## Part III.  Properties of the Windows agent -/

namespace Win32

/-- C26 fails on the code: when the wait returns `WAIT_OBJECT_0` and
`wstr_escape` reports `OS_INVALID`, `SendMSGAction` returns -1 with the mutex
still held.  On every other path that acquires the mutex it is released before
the return, and a call that does not acquire it does not hold it. -/
theorem C26_SendMSGAction_mutex :
    SendMSGAction { waits := [.WAIT_OBJECT_0], escapeInvalid := true, buffer := false,
                    send_msg := 0 } =
      some { retval := -1, acquired := true, mutexHeld := true } ∧
    (∀ w r, SendMSGAction w = some r → r.acquired = true →
      (r.mutexHeld = true ↔ w.escapeInvalid = true)) ∧
    (∀ w r, SendMSGAction w = some r → r.acquired = false →
      r.mutexHeld = false ∧ r.retval = -1) ∧
    (∀ w r, SendMSGAction w = some r → r.acquired = true → w.escapeInvalid = false →
      r.mutexHeld = false ∧
      r.retval = if w.buffer = false ∧ w.send_msg < 0 then -1 else 0) := by
  refine ⟨by decide, ?_, ?_, ?_⟩
  · intro w r h hacq
    unfold SendMSGAction at h
    rcases hw : waitForMutex w.waits with _ | res
    · rw [hw] at h
      cases h
    · rw [hw] at h
      cases res <;> simp only [Option.some.injEq] at h
      · by_cases hesc : w.escapeInvalid = true
        · rw [if_pos hesc] at h
          cases h
          simp [hesc]
        · rw [if_neg hesc] at h
          cases h
          simp [ReleaseMutex, hesc]
      all_goals
        subst h
        simp at hacq
  · intro w r h hacq
    unfold SendMSGAction at h
    rcases hw : waitForMutex w.waits with _ | res
    · rw [hw] at h
      cases h
    · rw [hw] at h
      cases res <;> simp only [Option.some.injEq] at h
      · by_cases hesc : w.escapeInvalid = true
        · rw [if_pos hesc] at h
          cases h
          simp at hacq
        · rw [if_neg hesc] at h
          cases h
          simp at hacq
      all_goals
        subst h
        exact ⟨rfl, rfl⟩
  · intro w r h hacq hesc
    unfold SendMSGAction at h
    rcases hw : waitForMutex w.waits with _ | res
    · rw [hw] at h
      cases h
    · rw [hw] at h
      cases res <;> simp only [Option.some.injEq] at h
      · rw [hesc] at h
        simp only [Bool.false_eq_true, if_false] at h
        cases h
        refine ⟨rfl, ?_⟩
        rcases hb : w.buffer with _ | _
        · by_cases hs : 0 ≤ w.send_msg
          · have : ¬ w.send_msg < 0 := by omega
            simp [hs, this]
          · have : w.send_msg < 0 := by omega
            simp [hs, this]
        · simp
      all_goals
        subst h
        simp at hacq

/-- A value in the range of a 32-bit signed integer is not changed by wrapping. -/
theorem wrapInt32_of_range (x : Int) (h1 : -2147483648 ≤ x) (h2 : x ≤ 2147483647) :
    wrapInt32 x = x := by
  unfold wrapInt32
  rw [Int.emod_eq_of_lt (by omega) (by omega)]
  omega

/-- C29: for non-negative configured values, positive defaults and no overflow
of the tripled value, the normalization of `local_start` leaves
`notify_time > 0` and `max_time_reconnect_try > notify_time`.  A zero
`notify_time` becomes the default; a zero `max_time_reconnect_try` becomes its
default; the value so obtained, when not greater than `notify_time`, becomes
`3 * notify_time`; a pair with `max_time_reconnect_try > notify_time > 0` is
unchanged. -/
theorem C29_normalizeReconnect (NOTIFY_TIME RECONNECT_TIME notify_time max_time : Int)
    (hNT : 0 < NOTIFY_TIME) (hRT : 0 < RECONNECT_TIME)
    (hn : 0 ≤ notify_time) (hm : 0 ≤ max_time)
    (hov : 3 * (if notify_time = 0 then NOTIFY_TIME else notify_time) ≤ 2147483647) :
    0 < (normalizeReconnect NOTIFY_TIME RECONNECT_TIME notify_time max_time).1 ∧
    (normalizeReconnect NOTIFY_TIME RECONNECT_TIME notify_time max_time).1 <
      (normalizeReconnect NOTIFY_TIME RECONNECT_TIME notify_time max_time).2 ∧
    (normalizeReconnect NOTIFY_TIME RECONNECT_TIME notify_time max_time).1 =
      (if notify_time = 0 then NOTIFY_TIME else notify_time) ∧
    (normalizeReconnect NOTIFY_TIME RECONNECT_TIME notify_time max_time).2 =
      (if (if max_time = 0 then RECONNECT_TIME else max_time) ≤
          (if notify_time = 0 then NOTIFY_TIME else notify_time)
        then 3 * (if notify_time = 0 then NOTIFY_TIME else notify_time)
        else (if max_time = 0 then RECONNECT_TIME else max_time)) ∧
    (0 < notify_time → notify_time < max_time →
      normalizeReconnect NOTIFY_TIME RECONNECT_TIME notify_time max_time =
        (notify_time, max_time)) := by
  have hw : wrapInt32 ((if notify_time = 0 then NOTIFY_TIME else notify_time) * 3) =
      3 * (if notify_time = 0 then NOTIFY_TIME else notify_time) := by
    rw [wrapInt32_of_range]
    · omega
    · split_ifs <;> omega
    · omega
  have key : normalizeReconnect NOTIFY_TIME RECONNECT_TIME notify_time max_time =
      ((if notify_time = 0 then NOTIFY_TIME else notify_time),
       (if (if max_time = 0 then RECONNECT_TIME else max_time) ≤
          (if notify_time = 0 then NOTIFY_TIME else notify_time)
        then 3 * (if notify_time = 0 then NOTIFY_TIME else notify_time)
        else (if max_time = 0 then RECONNECT_TIME else max_time))) := by
    unfold normalizeReconnect
    simp only [hw]
  rw [key]
  refine ⟨?_, ?_, rfl, rfl, ?_⟩
  · show 0 < (if notify_time = 0 then NOTIFY_TIME else notify_time)
    split_ifs <;> omega
  · show (if notify_time = 0 then NOTIFY_TIME else notify_time) <
      (if (if max_time = 0 then RECONNECT_TIME else max_time) ≤
          (if notify_time = 0 then NOTIFY_TIME else notify_time)
        then 3 * (if notify_time = 0 then NOTIFY_TIME else notify_time)
        else (if max_time = 0 then RECONNECT_TIME else max_time))
    split_ifs <;> omega
  · intro h1 h2
    have e1 : ¬ notify_time = 0 := by omega
    have e2 : ¬ max_time = 0 := by omega
    have e3 : ¬ max_time ≤ notify_time := by omega
    simp only [e1, e2, e3, if_false]

/-- C29, instance: notify time 10 and no maximum configured, with defaults 10
and 60. -/
theorem C29_normalizeReconnect_witness :
    normalizeReconnect 10 60 10 0 = (10, 60) ∧
    0 < (normalizeReconnect 10 60 10 0).1 ∧
    (normalizeReconnect 10 60 10 0).1 < (normalizeReconnect 10 60 10 0).2 :=
  have h := C29_normalizeReconnect 10 60 10 0 (by decide) (by decide) (by decide) (by decide)
    (by decide)
  ⟨by decide, h.1, h.2.1⟩

end Win32

/-! ## Part IV.  Properties of the logcollector requests -/

namespace LcCom

/-- The size returned by `lccom_getconfig` is the length of its output. -/
theorem lccom_getconfig_size (env : Env) (section_ : List Char) :
    (lccom_getconfig env section_).2 = (lccom_getconfig env section_).1.length := by
  unfold lccom_getconfig
  split_ifs <;> first | rfl | (split <;> rfl)

/-- The output of `lccom_getconfig` in terms of the document of the section. -/
theorem lccom_getconfig_output (env : Env) (section_ : List Char) :
    (lccom_getconfig env section_).1 =
      match sectionConfig env section_ with
      | some cfg => "ok ".toList ++ env.cJSON_PrintUnformatted cfg
      | none => "err Could not get requested section".toList := by
  unfold lccom_getconfig sectionConfig
  split_ifs <;> split <;> simp_all [getconfigOk, getconfigError, wm_strcat]

/-- The command word and the arguments are the two sides of the first space. -/
theorem command_split (command : List Char) :
    ' ' ∉ rcv_comm command ∧
    (' ' ∉ command → rcv_comm command = command ∧ rcv_args command = none) ∧
    (' ' ∈ command → ∃ args, rcv_args command = some args ∧
      command = rcv_comm command ++ ' ' :: args) := by
  unfold rcv_comm rcv_args
  induction command with
  | nil => simp
  | cons c cs ih =>
    obtain ⟨h1, h2, h3⟩ := ih
    by_cases hc : c = ' '
    · subst hc
      simp
    · have hc' : ¬ ' ' = c := fun h => hc h.symm
      refine ⟨?_, ?_, ?_⟩
      · simp only [List.takeWhile_cons, ne_eq, hc, not_false_eq_true, decide_True, if_true,
          List.mem_cons, hc', false_or]
        exact h1
      · intro hn
        have hn' : ' ' ∉ cs := fun h => hn (List.mem_cons_of_mem _ h)
        obtain ⟨e1, -⟩ := h2 hn'
        simp only [List.takeWhile_cons, ne_eq, hc, not_false_eq_true, decide_True, if_true,
          e1, hn, if_false, and_self]
      · intro hin
        have hin' : ' ' ∈ cs := by
          rcases List.mem_cons.1 hin with h | h
          · exact absurd h hc'
          · exact h
        obtain ⟨args, e1, e2⟩ := h3 hin'
        rw [if_pos hin'] at e1
        refine ⟨args, ?_, ?_⟩
        · rw [if_pos hin]
          simp only [List.dropWhile_cons, ne_eq, hc, not_false_eq_true, decide_True, if_true]
          exact e1
        · simp only [List.takeWhile_cons, ne_eq, hc, not_false_eq_true, decide_True, if_true,
            List.cons_append, List.cons.injEq, true_and]
          exact e2

/-- C27: `lccom_dispatch` splits the command at its first space into the command
word and the arguments.  A word other than `getconfig` and `getstate` gives
`err Unrecognized command`; `getconfig` in a command without space gives
`err LCCOM getconfig needs arguments`; `getconfig` with arguments is passed to
`lccom_getconfig`; `getstate` is passed to `lccom_getstate` whatever follows the
space.  The returned size is always the length of the output. -/
theorem C27_lccom_dispatch (env : Env) (command : List Char) :
    (' ' ∉ rcv_comm command ∧
      (' ' ∉ command → rcv_comm command = command ∧ rcv_args command = none) ∧
      (' ' ∈ command → ∃ args, rcv_args command = some args ∧
        command = rcv_comm command ++ ' ' :: args)) ∧
    (rcv_comm command ≠ "getconfig".toList → rcv_comm command ≠ "getstate".toList →
      (lccom_dispatch env command).1 = "err Unrecognized command".toList) ∧
    (rcv_comm command = "getconfig".toList → ' ' ∉ command →
      (lccom_dispatch env command).1 = "err LCCOM getconfig needs arguments".toList) ∧
    (rcv_comm command = "getconfig".toList → ∀ args, rcv_args command = some args →
      lccom_dispatch env command = lccom_getconfig env args) ∧
    (rcv_comm command = "getstate".toList →
      lccom_dispatch env command = lccom_getstate env) ∧
    (lccom_dispatch env command).2 = (lccom_dispatch env command).1.length := by
  refine ⟨command_split command, ?_, ?_, ?_, ?_, ?_⟩
  · intro h1 h2
    simp only [lccom_dispatch, h1, h2, if_false]
  · intro h1 h2
    have := ((command_split command).2.1 h2).2
    simp only [lccom_dispatch, h1, this, if_true]
  · intro h1 args h2
    simp only [lccom_dispatch, h1, h2, if_true]
  · intro h1
    have h2 : ¬ rcv_comm command = "getconfig".toList := by
      rw [h1]
      decide
    unfold lccom_dispatch
    rw [if_neg h2, if_pos h1]
  · unfold lccom_dispatch
    split_ifs
    · split
      · rfl
      · exact lccom_getconfig_size env _
    · rfl
    · rfl

/-- C28: the output of `lccom_getconfig` is `ok `, followed by the unformatted
JSON of the section's configuration, exactly when the section is `localfile`,
`socket` or `internal` and its getter returns a document; in every other case,
the empty section included, it is `err Could not get requested section`.  The
returned size is the length of the output. -/
theorem C28_lccom_getconfig (env : Env) (section_ : List Char) :
    (∀ cfg, sectionConfig env section_ = some cfg →
      (lccom_getconfig env section_).1 = "ok ".toList ++ env.cJSON_PrintUnformatted cfg) ∧
    (sectionConfig env section_ = none →
      (lccom_getconfig env section_).1 = "err Could not get requested section".toList) ∧
    ("ok ".toList <+: (lccom_getconfig env section_).1 ↔
      (section_ = "localfile".toList ∧ env.getLocalfileConfig ≠ none) ∨
      (section_ = "socket".toList ∧ env.getSocketConfig ≠ none) ∨
      (section_ = "internal".toList ∧ env.getLogcollectorInternalOptions ≠ none)) ∧
    (lccom_getconfig env [] ).1 = "err Could not get requested section".toList ∧
    (lccom_getconfig env section_).2 = (lccom_getconfig env section_).1.length := by
  have hout := lccom_getconfig_output env section_
  refine ⟨?_, ?_, ?_, ?_, lccom_getconfig_size env section_⟩
  · intro cfg h
    rw [hout, h]
  · intro h
    rw [hout, h]
  · have hsome : (sectionConfig env section_ ≠ none) ↔
        ((section_ = "localfile".toList ∧ env.getLocalfileConfig ≠ none) ∨
        (section_ = "socket".toList ∧ env.getSocketConfig ≠ none) ∨
        (section_ = "internal".toList ∧ env.getLogcollectorInternalOptions ≠ none)) := by
      unfold sectionConfig
      by_cases h1 : section_ = "localfile".toList
      · subst h1
        simp
      · by_cases h2 : section_ = "socket".toList
        · subst h2
          simp
        · by_cases h3 : section_ = "internal".toList
          · subst h3
            simp
          · simp only [h1, h2, h3, if_false, ne_eq, not_true_eq_false, false_and, or_self]
    rw [← hsome, hout]
    rcases sectionConfig env section_ with _ | cfg
    · simp only [ne_eq, not_true_eq_false, iff_false]
      intro h
      revert h
      decide
    · simp only [ne_eq, reduceCtorEq, not_false_eq_true, iff_true]
      exact List.prefix_append _ _
  · rw [lccom_getconfig_output]
    rfl

end LcCom

/-! ## Part V.  Properties of the memory report -/

namespace SysInfo

/-- C30 as stated fails in its last part: with 1000 KiB in total and 1005 KiB
free the subtraction does not wrap (the usage is 0) although the free amount
exceeds the total. -/
theorem C30_getMemory_counterexample :
    getMemory (1000 * 1024) 1024 1005 = some (1000, 1005, 0) ∧
    (0 : Int) = 100 - ((100 * 1005 / 1000 : Nat) : Int) ∧ ¬ (1005 ≤ 1000) := by
  decide

/-- C30, amended: with a total of at least one KiB and the free amount in KiB
not above the total in KiB, `ram_usage` is
`100 - floor(100 * ram_free / ram_total)` on the KiB values and lies between 0
and 100.  The division is defined exactly when the total is at least one KiB.
The subtraction does not wrap exactly when `floor(100 * ram_free / ram_total)`
is at most 100, which holds whenever `ram_free ≤ ram_total`. -/
theorem C30_getMemory (ram pageSize freePages : Nat) :
    (KByte ≤ ram →
      (freePages * pageSize % 18446744073709551616) / KByte ≤ ram / KByte →
      getMemory ram pageSize freePages =
        some (ram / KByte, (freePages * pageSize % 18446744073709551616) / KByte,
          100 - 100 * ((freePages * pageSize % 18446744073709551616) / KByte) / (ram / KByte)) ∧
      100 * ((freePages * pageSize % 18446744073709551616) / KByte) / (ram / KByte) ≤ 100) ∧
    (getMemory ram pageSize freePages ≠ none ↔ KByte ≤ ram) ∧
    (∀ total free usage, getMemory ram pageSize freePages = some (total, free, usage) →
      ((usage : Int) = 100 - ((100 * free / total : Nat) : Int) ↔ 100 * free / total ≤ 100)) := by
  have hF : 100 * ((freePages * pageSize % 18446744073709551616) / KByte) <
      18446744073709551616 := by
    unfold KByte
    omega
  have hmod : 100 * ((freePages * pageSize % 18446744073709551616) / KByte) %
      18446744073709551616 = 100 * ((freePages * pageSize % 18446744073709551616) / KByte) :=
    Nat.mod_eq_of_lt hF
  have hT : KByte ≤ ram ↔ ¬ ram / KByte = 0 := by
    unfold KByte
    omega
  refine ⟨?_, ?_, ?_⟩
  · intro hk hle
    have hq : 100 * ((freePages * pageSize % 18446744073709551616) / KByte) / (ram / KByte) ≤
        100 := by
      apply Nat.div_le_of_le_mul
      rw [Nat.mul_comm (ram / KByte) 100]
      exact Nat.mul_le_mul_left 100 hle
    refine ⟨?_, hq⟩
    unfold getMemory
    simp only [hT.1 hk, if_false, hmod, Option.some.injEq, Prod.mk.injEq, true_and]
    generalize 100 * ((freePages * pageSize % 18446744073709551616) / KByte) / (ram / KByte) = q
      at hq ⊢
    omega
  · unfold getMemory
    by_cases h0 : ram / KByte = 0
    · simp only [h0, if_true, ne_eq, not_true_eq_false, false_iff]
      exact fun hk => hT.1 hk h0
    · simp only [h0, if_false, ne_eq, reduceCtorEq, not_false_eq_true, true_iff]
      exact hT.2 h0
  · intro total free usage h
    unfold getMemory at h
    by_cases h0 : ram / KByte = 0
    · simp [h0] at h
    · simp only [h0, if_false, hmod, Option.some.injEq, Prod.mk.injEq] at h
      obtain ⟨rfl, rfl, rfl⟩ := h
      have hqlt : 100 * ((freePages * pageSize % 18446744073709551616) / KByte) / (ram / KByte) <
          18446744073709551616 :=
        Nat.lt_of_le_of_lt (Nat.div_le_self _ _) hF
      generalize 100 * ((freePages * pageSize % 18446744073709551616) / KByte) / (ram / KByte) = q
        at hqlt ⊢
      omega

/-- C30, instance: 4 GiB in total, pages of 4096 bytes, 262144 pages free. -/
theorem C30_getMemory_witness :
    getMemory 4294967296 4096 262144 = some (4194304, 1048576, 75) :=
  have h := (C30_getMemory 4294967296 4096 262144).1 (by decide) (by decide)
  h.1.trans (by decide)

end SysInfo
